import Mathlib

/-!
# fastscan: a shallow embedding of `fastscan.go`

The Go program scans the TCP ports of one host.  This file embeds the parts of
`src/fastscan.go` that the specification talks about:

* `portList`  (lines 285-347): parsing of the port specification and the shuffle,
* `attackOne` (lines 268-281): one connection attempt,
* `attacker`  (lines 184-262): the worker loop with its retry jump,
* `slog`      (lines 350-353): the success counter and the SUCCESS line,
* the feeding loop of `main` (lines 123-161) with its progress report.

Conventions of the embedding.

* A Go `string` is the list of its characters (`Str`).
* Go's `int` and `time.Duration` are 64 bit signed integers: they are `Int`s,
  and `wrapInt` is applied wherever the Go operation can overflow.
* The outside world is an explicit input: the results of `rand.Int`, the
  behaviour of the network during every call of `attackOne`, the readings of
  `time.Now()` and the iteration order of a Go map.
* Loops that may run for ever (the range loop of `portList` when the counter
  wraps, the `goto try` of `attacker`) take a fuel argument and answer
  `noFuel` when it is used up.
-/

namespace Fastscan


/-- A Go string, as the list of its characters. -/
abbrev Str := List Char

/-! ## Library functions the program calls -/

/-- The call `strings.Split(s, sep)` for a separator of one character: the
pieces of `s` between the occurrences of `sep` (one more piece than there are
separators). -/
def Split (sep : Char) : Str → List Str
  | [] => [[]]
  | c :: cs =>
    if c = sep then [] :: Split sep cs
    else
      match Split sep cs with
      | [] => [[c]]
      | t :: ts => (c :: t) :: ts

/-- The call `strings.HasSuffix(s, suffix)`:
`len(s) >= len(suffix) && s[len(s)-len(suffix):] == suffix`. -/
def HasSuffix (s suffix : Str) : Bool :=
  decide (suffix.length ≤ s.length) && decide (s.drop (s.length - suffix.length) = suffix)

/-- The two errors of package `strconv`: `ErrSyntax` and `ErrRange`. -/
inductive NumErr
  | errSyn
  | errRange
  deriving DecidableEq

/-- The width of a Go `int` on the platforms the scanner is built for. -/
def intSize : Nat := 64

/-- The largest `int`. -/
def maxInt : Int := 2 ^ 63 - 1

/-- The smallest `int`. -/
def minInt : Int := -(2 ^ 63)

/-- Two's complement reduction of an integer to 64 bits: what Go's `int`
and `time.Duration` arithmetic computes. -/
def wrapInt (x : Int) : Int := (x + 2 ^ 63) % 2 ^ 64 - 2 ^ 63

/-- The digit loop of `strconv.ParseUint(s, 10, 64)`: `n` is the value read so
far.  A byte that is no decimal digit is a syntax error; a value that leaves
64 bits is a range error (the `cutoff` test and the `n1 < n` test). -/
def parseUintLoop : Str → Nat → Except NumErr Nat
  | [], n => .ok n
  | c :: cs, n =>
    if c.isDigit then
      if n ≥ (2 ^ 64 - 1) / 10 + 1 then .error .errRange
      else
        let n10 := n * 10
        let n1 := (n10 + (c.toNat - 48)) % 2 ^ 64
        if n1 < n10 then .error .errRange
        else parseUintLoop cs n1
    else .error .errSyn

/-- The call `strconv.ParseUint(s, 10, 64)`. -/
def ParseUint (s : Str) : Except NumErr Nat :=
  if s = [] then .error .errSyn else parseUintLoop s 0

/-- The call `strconv.ParseInt(s, 10, 0)`: an optional sign, then
`ParseUint`, then the check against the range of `int`. -/
def ParseInt (s : Str) : Except NumErr Int :=
  match s with
  | [] => .error .errSyn
  | c :: cs =>
    let neg : Bool := decide (c = '-')
    let body : Str := if c = '+' ∨ c = '-' then cs else s
    match ParseUint body with
    | .error e => .error e
    | .ok un =>
      if !neg && decide (un ≥ 2 ^ (intSize - 1)) then .error .errRange
      else if neg && decide (un > 2 ^ (intSize - 1)) then .error .errRange
      else .ok (if neg then -(un : Int) else (un : Int))

/-- The call `strconv.Atoi(s)`; its fast path for short strings computes the
same result as `ParseInt(s, 10, 0)`. -/
def Atoi (s : Str) : Except NumErr Int := ParseInt s

/-- The call `fmt.Sprintf("%v", n)` for an `int`: the decimal rendering. -/
def Sprintf (n : Int) : Str :=
  if n < 0 then '-' :: Nat.toDigits 10 n.natAbs else Nat.toDigits 10 n.toNat

/-- The call `net.JoinHostPort(host, port)`. -/
def JoinHostPort (host port : Str) : Str :=
  if ':' ∈ host then '[' :: host ++ (']' :: ':' :: port) else host ++ (':' :: port)

/-! ## `portList` -/

/-- The errors `portList` returns. -/
inductive PortErr
  | atoi (s : Str) (e : NumErr)
  | notTwoNumbers
  | missingLower
  | missingUpper
  | rand
  deriving DecidableEq

/-- How a run of `portList` ends: it returns a value and a nil error, it
returns an error, it panics with an index out of range, or the model ran out
of fuel. -/
inductive Res (α : Type)
  | ok (v : α)
  | err (e : PortErr)
  | indexPanic
  | noFuel
  deriving DecidableEq

/-- The map `ns` of `portList`, a `map[int]struct{}`: the list of its keys,
without repetition.  `ns[n] = struct{}{}` is `List.insert n`. -/
abbrev PortSet := List Int

/-- The loop `for i := start; i <= end; i++ { ns[i] = struct{}{} }` of lines
325-327.  The increment is Go's: it wraps at `maxInt`. -/
def rangeLoop : Nat → Int → Int → PortSet → Option PortSet
  | 0, _, _, _ => none
  | fuel + 1, i, e, ns =>
    if i ≤ e then rangeLoop fuel (wrapInt (i + 1)) e (ns.insert i) else some ns

/-- The body of the loop over the comma-separated pieces, lines 288-328, run
on the pieces that are left. -/
def parseLoop (fuel : Nat) : List Str → PortSet → Res PortSet
  | [], ns => .ok ns
  | r :: rest, ns =>
    if r = [] then parseLoop fuel rest ns
    else if '-' ∉ r then
      match Atoi r with
      | .error e => .err (.atoi r e)
      | .ok n => parseLoop fuel rest (ns.insert n)
    else
      match Split '-' r with
      | [lo, hi] =>
        if lo = [] then .err .missingLower
        else
          match Atoi lo with
          | .error e => .err (.atoi lo e)
          | .ok start =>
            if hi = [] then .err .missingUpper
            else
              match Atoi hi with
              | .error e => .err (.atoi hi e)
              | .ok e =>
                match rangeLoop fuel start e ns with
                | none => .noFuel
                | some ns1 => parseLoop fuel rest ns1
      | _ => .err .notTwoNumbers

/-- Lines 286-328 of `portList`: the set of ports of a specification. -/
def portSet (fuel : Nat) (rs : Str) : Res PortSet :=
  parseLoop fuel (Split ',' rs) []

/-- The order in which `for n := range ns` visits the keys of a map: Go leaves
it open, so it is an input, any rearrangement of the keys. -/
structure MapIter where
  order : List Int → List Int
  perm : ∀ l, (order l).Perm l

/-- The iteration that visits the keys in the order of their insertion. -/
def MapIter.insertion : MapIter := ⟨fun l => l, fun l => List.Perm.refl l⟩

/-- The iteration that visits the keys in the reverse order. -/
def MapIter.reversed : MapIter := ⟨List.reverse, fun l => List.reverse_perm l⟩

/-- Lines 330-333: the slice `ps` of the rendered ports. -/
def portStrings (it : MapIter) (ns : PortSet) : List Str :=
  (it.order ns).map Sprintf

/-- The statement `ps[i], ps[j] = ps[j], ps[i]`; an index outside the slice is
a run-time panic. -/
def swapAt {α : Type} (ps : List α) (i j : Nat) : Option (List α) :=
  match ps[i]?, ps[j]? with
  | some x, some y => some ((ps.set i y).set j x)
  | _, _ => none

/-- The call `rand.Int(rand.Reader, max)` for `max >= 1`, given what the
reader lets it produce (`r`: a value, or `none` for the reader's error).  With
`max = 1` the only result is 0 and the function answers without reading, so
the reader's error cannot show. -/
def randInt (r : Option Nat) (max : Nat) : Option Nat :=
  if max = 1 then some 0 else r

/-- The shuffle, lines 335-345: `k` iterations are left, the next one has
index `i`; `rnd i` is what the reader lets `rand.Int(rand.Reader, i+1)` produce
in iteration `i` (`none`: an error). -/
def shuffleLoop {α : Type} (rnd : Nat → Option Nat) : Nat → Nat → List α → Res (List α)
  | 0, _, ps => .ok ps
  | k + 1, i, ps =>
    match randInt (rnd i) (i + 1) with
    | none => .err .rand
    | some j =>
      match swapAt ps i j with
      | none => .indexPanic
      | some ps1 => shuffleLoop rnd k (i + 1) ps1

/-- The loop `for i := range ps` over the whole slice. -/
def shuffle {α : Type} (rnd : Nat → Option Nat) (ps : List α) : Res (List α) :=
  shuffleLoop rnd ps.length 0 ps

/-- The function `portList(rs)`. -/
def portList (fuel : Nat) (it : MapIter) (rs : Str) (rnd : Nat → Option Nat) :
    Res (List Str) :=
  match portSet fuel rs with
  | .ok ns => shuffle rnd (portStrings it ns)
  | .err e => .err e
  | .indexPanic => .indexPanic
  | .noFuel => .noFuel

/-! ## `attackOne`, `slog` and `attacker` -/

/-- What the network does during one call of `attackOne`: the error of
`net.DialTimeout` (`none`: connected), the error of `c.SetReadDeadline`, the
bytes `c.Read` has to deliver and the error `c.Read` returns with them. -/
structure Attempt where
  dialErr : Option Str
  deadlineErr : Option Str
  readData : List Nat
  readErr : Option Str

/-- The call `c.Read(buf)`: at most `len(buf)` bytes are copied to the start of
`buf`; the result is their number, the error of the read and the buffer. -/
def connRead (a : Attempt) (buf : List Nat) : Nat × Option Str × List Nat :=
  let got := a.readData.take buf.length
  (got.length, a.readErr, got ++ buf.drop got.length)

/-- The function `attackOne(t, buf, to)`, lines 268-281: the number of bytes,
the error, and the buffer as the call leaves it.  The target and the timeout
act through what the network does; the deferred `c.Close()` changes no
result. -/
def attackOne (a : Attempt) (buf : List Nat) : Nat × Option Str × List Nat :=
  match a.dialErr with
  | some e => (0, some e, buf)
  | none =>
    match a.deadlineErr with
    | some e => (0, some e, buf)
    | none =>
      match connRead a buf with
      | (n, _, buf1) => (n, none, buf1)

/-- The terminal outcomes of a port, in the words of the specification. -/
inductive Outcome
  | Success (n : Nat)
  | Refused
  | TimedOut
  | OtherError (msg : Str)
  deriving DecidableEq

/-- What a worker does, in order: the calls of `attackOne`, the sleeps, the
lines it logs, and a mark `done` where the iteration for a port ends. -/
inductive Event
  | attempt (t : Str)
  | sleep (ns : Nat)
  | logFAIL (t err : Str)
  | logERROR (t err : Str)
  | logSUCCESS (t : Str) (banner : List Nat)
  | done (t : Str) (o : Outcome)
  deriving DecidableEq

/-- The state a worker runs in: how many calls of `attackOne` and of
`rand.Int` it has made, the global counter `nSuc`, the read buffer (an array
of `blen` bytes), and what it has done so far. -/
structure WState where
  calls : Nat
  draws : Nat
  nSuc : Nat
  buf : List Nat
  trace : List Event
  deriving DecidableEq

/-- The surroundings of a worker: `net k` is what the network does during the
`k`-th call of `attackOne`, `rnd k` what the `k`-th call of
`rand.Int(rand.Reader, RETRYWAIT)` returns (`none`: an error). -/
structure Env where
  net : Nat → Attempt
  rnd : Nat → Option Nat

/-- The flags a worker is started with: `-f` and `-r`. -/
structure Flags where
  fails : Bool
  retry : Bool

/-- How a run of a worker ends: the loop is over, `log.Fatalf` has stopped the
process, or the model ran out of fuel. -/
inductive WRes
  | ok (s : WState)
  | fatal (s : WState)
  | noFuel
  deriving DecidableEq

/-- The function `slog(t, buf)`, lines 350-353: `atomic.AddUint64(&nSuc, 1)` and
the SUCCESS line. -/
def slog (t : Str) (banner : List Nat) (s : WState) : WState :=
  { s with nSuc := (s.nSuc + 1) % 2 ^ 64, trace := s.trace ++ [Event.logSUCCESS t banner] }

/-- The suffix of the retry test, line 215. -/
def noRouteMsg : Str := "connect: no route to host".toList

/-- The first suffix of the test of lines 241-249. -/
def timeoutMsg : Str := "i/o timeout".toList

/-- The second suffix of the test of lines 241-249. -/
def refusedMsg : Str := ": connection refused".toList

/-- The body of the loop of `attacker` for one target `t`, lines 204-260, from
the label `try` on; every `goto try` uses one unit of fuel. -/
def tryPort (env : Env) (fl : Flags) (t : Str) : Nat → WState → WRes
  | 0, _ => .noFuel
  | fuel + 1, s =>
    match attackOne (env.net s.calls) s.buf with
    | (n, err, buf1) =>
      let s1 : WState :=
        { s with calls := s.calls + 1, buf := buf1, trace := s.trace ++ [Event.attempt t] }
      match err with
      | some emsg =>
        if fl.retry && HasSuffix emsg noRouteMsg then
          match env.rnd s1.draws with
          | none => .fatal s1
          | some bst =>
            tryPort env fl t fuel
              { s1 with draws := s1.draws + 1, trace := s1.trace ++ [Event.sleep bst] }
        else if HasSuffix emsg timeoutMsg || HasSuffix emsg refusedMsg then
          let o := if HasSuffix emsg timeoutMsg then Outcome.TimedOut else Outcome.Refused
          if fl.fails then
            .ok { s1 with trace := s1.trace ++ [Event.logFAIL t emsg, Event.done t o] }
          else
            .ok { s1 with trace := s1.trace ++ [Event.done t o] }
        else
          .ok { s1 with
            trace := s1.trace ++ [Event.logERROR t emsg, Event.done t (Outcome.OtherError emsg)] }
      | none =>
        let s2 := slog t (buf1.take n) s1
        .ok { s2 with trace := s2.trace ++ [Event.done t (Outcome.Success n)] }

/-- The function `attacker`, lines 184-262, on the ports it receives from the
channel until the channel is closed. -/
def attacker (env : Env) (fl : Flags) (target : Str) (fuel : Nat) : List Str → WState → WRes
  | [], s => .ok s
  | port :: rest, s =>
    match tryPort env fl (JoinHostPort target port) fuel s with
    | .ok s1 => attacker env fl target fuel rest s1
    | .fatal s1 => .fatal s1
    | .noFuel => .noFuel

/-! ## The errors `attackOne` returns -/

/-- The innermost cause of an error of package `net`: a `syscall.Errno` with
its text from the table of package `syscall` on Linux (the numbers a socket
call answers with; a number outside the table prints as "errno N"), or one of
the fixed errors of the packages `net`, `os` and `context`. -/
inductive Cause
  | EPERM
  | EINTR
  | EBADF
  | EAGAIN
  | ENOMEM
  | EACCES
  | EINVAL
  | ENFILE
  | EMFILE
  | EADDRINUSE
  | EADDRNOTAVAIL
  | ENETDOWN
  | ENETUNREACH
  | ECONNABORTED
  | ECONNRESET
  | ENOBUFS
  | ETIMEDOUT
  | ECONNREFUSED
  | EHOSTDOWN
  | EHOSTUNREACH
  | EALREADY
  | EINPROGRESS
  | errno (n : Nat)
  | ioTimeout
  | closedConn
  | noSuchHost
  | serverMisbehaving
  | missingPort
  | canceled
  deriving DecidableEq

/-- The text of a cause: what its method `Error()` returns. -/
def Cause.text : Cause → Str
  | .EPERM => "operation not permitted".toList
  | .EINTR => "interrupted system call".toList
  | .EBADF => "bad file descriptor".toList
  | .EAGAIN => "resource temporarily unavailable".toList
  | .ENOMEM => "cannot allocate memory".toList
  | .EACCES => "permission denied".toList
  | .EINVAL => "invalid argument".toList
  | .ENFILE => "too many open files in system".toList
  | .EMFILE => "too many open files".toList
  | .EADDRINUSE => "address already in use".toList
  | .EADDRNOTAVAIL => "cannot assign requested address".toList
  | .ENETDOWN => "network is down".toList
  | .ENETUNREACH => "network is unreachable".toList
  | .ECONNABORTED => "software caused connection abort".toList
  | .ECONNRESET => "connection reset by peer".toList
  | .ENOBUFS => "no buffer space available".toList
  | .ETIMEDOUT => "connection timed out".toList
  | .ECONNREFUSED => "connection refused".toList
  | .EHOSTDOWN => "host is down".toList
  | .EHOSTUNREACH => "no route to host".toList
  | .EALREADY => "operation already in progress".toList
  | .EINPROGRESS => "operation now in progress".toList
  | .errno n => "errno ".toList ++ Nat.toDigits 10 n
  | .ioTimeout => "i/o timeout".toList
  | .closedConn => "use of closed network connection".toList
  | .noSuchHost => "no such host".toList
  | .serverMisbehaving => "server misbehaving".toList
  | .missingPort => "missing port in address".toList
  | .canceled => "operation was canceled".toList

/-- The text of an error wrapped in the given layers, outermost first: every
wrapping error (`os.SyscallError`, `net.DNSError`, an inner `net.OpError`)
prints its own words, a colon and a blank, and then the error it wraps. -/
def layered : List Str → Str → Str
  | [], t => t
  | w :: ws, t => w ++ ':' :: ' ' :: layered ws t

/-- An error as `net.DialTimeout` and `c.SetReadDeadline` return it, a
`*net.OpError`: the operation, network and address it prints first
(`head`, as in "dial tcp 10.0.0.1:81"), the errors wrapped in between
(as "connect" of an `os.SyscallError`), and the innermost cause. -/
structure NetError where
  head : Str
  layers : List Str
  cause : Cause

/-- The method `Error()` of a `*net.OpError`: the head, a colon, a blank and
the text of the wrapped error. -/
def NetError.Error (e : NetError) : Str :=
  e.head ++ ':' :: ' ' :: layered e.layers e.cause.text

/-! ## The feeding loop of `main` and its progress report -/

/-- The constant `PROGINTERVAL`, in nanoseconds. -/
def PROGINTERVAL : Int := 15 * 1000000000

/-- The constant `RETRYWAIT`, in nanoseconds. -/
def RETRYWAIT : Int := 30 * 1000000000

/-- The call `n.Sub(lastt)`: the difference of two readings of the clock as a
`time.Duration`, cut off at the largest and the smallest duration. -/
def timeSub (n lastt : Int) : Int := max minInt (min maxInt (n - lastt))

/-- The division `a / b` of two values of type `time.Duration`: it truncates
toward zero, and a zero divisor is a run-time panic (`none`). -/
def durDiv (a b : Int) : Option Int := if b = 0 then none else some (wrapInt (Int.tdiv a b))

/-- The product `a * b` of two values of type `time.Duration`. -/
def durMul (a b : Int) : Int := wrapInt (a * b)

/-- One progress line: the index `i` and `lasti` it was computed from, the
number of ports, the readings `lastt` and `n` of the clock, the time `itime`
between the two, and the two estimates: `est` is the remaining time in
nanoseconds, `etc` the time of completion, and `none` stands for the texts
"forever" and "never".  The rate, a floating point number, and the value of
`nSuc`, which the workers change meanwhile, are left out. -/
structure Report where
  i : Int
  lasti : Int
  total : Int
  lastt : Int
  n : Int
  itime : Int
  est : Option Int
  etc : Option Int
  deriving DecidableEq

/-- Lines 130-157: the report written at index `i`, at clock reading `n`;
`none` is a run-time panic (a division by zero).  The differences `i - lasti`
and `total - i` are differences of indices of one slice and cannot overflow. -/
def progress (i lasti total lastt n : Int) : Option Report :=
  let itime := timeSub n lastt
  if lasti < i then
    match durDiv itime (i - lasti) with
    | none => none
    | some dpp =>
      let rem := durMul (total - i) dpp
      some { i := i, lasti := lasti, total := total, lastt := lastt, n := n, itime := itime,
             est := some rem, etc := some (n + rem) }
  else
    some { i := i, lasti := lasti, total := total, lastt := lastt, n := n, itime := itime,
           est := none, etc := none }

/-- The state of the feeding loop: `lastt`, `lasti`, the number of readings of
the clock so far and the reports written. -/
structure PState where
  lastt : Int
  lasti : Int
  ticks : Nat
  reports : List Report
  deriving DecidableEq

/-- The loop `for i, p := range ports` of lines 126-161 from index `i` on;
`now k` is the `k`-th reading of `time.Now()`, `total` is `len(ports)`.  `none`
is a run-time panic. -/
def feedLoop (now : Nat → Int) (total : Int) : List Str → Int → PState → Option PState
  | [], _, s => some s
  | _ :: rest, i, s =>
    if now s.ticks > s.lastt + PROGINTERVAL then
      let n := now (s.ticks + 1)
      match progress i s.lasti total s.lastt n with
      | none => none
      | some r =>
        feedLoop now total rest (i + 1)
          { lastt := n, lasti := i, ticks := s.ticks + 2, reports := s.reports ++ [r] }
    else
      feedLoop now total rest (i + 1) { s with ticks := s.ticks + 1 }

/-- Lines 124-161 of `main`: the feeding of the ports with its reports. -/
def feed (now : Nat → Int) (ports : List Str) : Option PState :=
  feedLoop now ports.length ports 0 { lastt := now 0, lasti := 0, ticks := 1, reports := [] }

/-! ## The words of the specification -/

/-- The text is a valid integer: `strconv.Atoi` accepts it. -/
def ValidInt (s : Str) : Prop := ∃ n, Atoi s = .ok n

/-- The ports a token of the specification stands for: the port `n` for a
token that is the single integer `n`, the ports from `lo` to `hi` for a range
token `lo-hi`. -/
def TokenPorts (tok : Str) (n : Int) : Prop :=
  ('-' ∉ tok ∧ Atoi tok = .ok n) ∨
  ∃ a b lo hi, tok = a ++ '-' :: b ∧ '-' ∉ a ∧ '-' ∉ b ∧
    Atoi a = .ok lo ∧ Atoi b = .ok hi ∧ lo ≤ n ∧ n ≤ hi

/-- The union of the ports of the non-empty comma-separated tokens. -/
def SpecPorts (rs : Str) (n : Int) : Prop :=
  ∃ tok, tok ∈ Split ',' rs ∧ tok ≠ [] ∧ TokenPorts tok n

/-- A malformed token: no hyphen and no valid integer, or more than one
hyphen, or one hyphen and a bound that is empty or no valid integer. -/
def Malformed (tok : Str) : Prop :=
  (tok.count '-' = 0 ∧ ¬ ValidInt tok) ∨
  1 < tok.count '-' ∨
  (tok.count '-' = 1 ∧ ∃ a b, tok = a ++ '-' :: b ∧
    (a = [] ∨ ¬ ValidInt a ∨ b = [] ∨ ¬ ValidInt b))

/-- Some non-empty comma-separated token of the specification is malformed. -/
def HasMalformed (rs : Str) : Prop :=
  ∃ tok, tok ∈ Split ',' rs ∧ tok ≠ [] ∧ Malformed tok

/-- A range token whose upper bound is the largest `int`: the counter of its
range loop wraps and the loop does not end. -/
def EndlessRange (tok : Str) : Prop :=
  ∃ a b lo, tok = a ++ '-' :: b ∧ '-' ∉ a ∧ '-' ∉ b ∧ Atoi a = .ok lo ∧ Atoi b = .ok maxInt

/-- What the specification says of a progress report over `total` ports: no
estimate when no port was processed since the last report, else the product of
the ports that are left and the truncated quotient of the elapsed time by the
ports processed, as 64 bit arithmetic computes it. -/
def ReportOK (total : Int) (r : Report) : Prop :=
  r.total = total ∧ 0 ≤ r.lasti ∧ r.lasti ≤ r.i ∧ r.i < total ∧
  r.itime = timeSub r.n r.lastt ∧
  (r.i = r.lasti → r.est = none ∧ r.etc = none) ∧
  (r.i ≠ r.lasti → 0 < r.i - r.lasti ∧
    r.est = some (wrapInt ((total - r.i) * Int.tdiv r.itime (r.i - r.lasti))) ∧
    r.etc = some (r.n + wrapInt ((total - r.i) * Int.tdiv r.itime (r.i - r.lasti))))

/-- The reports follow one another: every report was computed from the index
and the clock reading of the report before it, and the first one from the index
`lasti` and the reading `lastt`. -/
def Chained (lastt lasti : Int) : List Report → Prop
  | [] => True
  | r :: rs => r.lastt = lastt ∧ r.lasti = lasti ∧ Chained r.n r.i rs

/-- The clock reading and the index of the last report of a list, or `lastt`
and `lasti` when the list is empty. -/
def lastPoint (lastt lasti : Int) : List Report → Int × Int
  | [] => (lastt, lasti)
  | r :: rs => lastPoint r.n r.i rs

/-- The number of calls of `attackOne`, among the `n` calls from call `c` on,
that return no error. -/
def noErrorCalls (env : Env) : Nat → Nat → Nat
  | _, 0 => 0
  | c, n + 1 =>
    (if (attackOne (env.net c) []).2.1 = none then 1 else 0) + noErrorCalls env (c + 1) n

/-- The first `n` draws of the shuffle succeed, the draw at index `i` with a
value in `[0, i]`. -/
def GoodDraws (rnd : Nat → Option Nat) (n : Nat) : Prop :=
  ∀ i, i < n → ∃ j, j ≤ i ∧ rnd i = some j

/-- A finite sequence of successful draws, as the source of the shuffle. -/
def drawsOf (ds : List Nat) : Nat → Option Nat := fun i => ds[i]?

/-- All sequences of `n` draws in which the draw at index `i` is in `[0, i]`. -/
def allDraws : Nat → List (List Nat)
  | 0 => [[]]
  | n + 1 => (allDraws n).flatMap fun ds => (List.range (n + 1)).map fun j => ds ++ [j]

/-- The attempt is one the worker retries: it failed with a message that ends
in the suffix of line 215, and retries are on.  (Whether `attackOne` fails, and
with which error, does not depend on the buffer.) -/
def Retryable (fl : Flags) (a : Attempt) : Bool :=
  match (attackOne a []).2.1 with
  | some emsg => fl.retry && HasSuffix emsg noRouteMsg
  | none => false

/-- The terminal outcome the specification gives to the result `(n, err)` of an
attempt that is not retried. -/
def classify (n : Nat) (err : Option Str) : Outcome :=
  match err with
  | none => Outcome.Success n
  | some e =>
    if HasSuffix e timeoutMsg then Outcome.TimedOut
    else if HasSuffix e refusedMsg then Outcome.Refused
    else Outcome.OtherError e

/-- The event is a SUCCESS line. -/
def Event.isSuccessLine : Event → Bool
  | .logSUCCESS _ _ => true
  | _ => false

/-- The event marks the end of a port with the outcome Success. -/
def Event.isSuccessDone : Event → Bool
  | .done _ (.Success _) => true
  | _ => false

/-- The event is a sleep. -/
def Event.isSleep : Event → Bool
  | .sleep _ => true
  | _ => false

/-- The number of SUCCESS lines of a trace. -/
def successLines (tr : List Event) : Nat := tr.countP Event.isSuccessLine

/-- The number of ports of a trace that ended with the outcome Success. -/
def successOutcomes (tr : List Event) : Nat := tr.countP Event.isSuccessDone

/-- The number of sleeps of a trace. -/
def sleepsOf (tr : List Event) : Nat := tr.countP Event.isSleep

/-- The terminal outcomes of a trace, in order, each with its target. -/
def doneOf : List Event → List (Str × Outcome)
  | [] => []
  | .done t o :: tr => (t, o) :: doneOf tr
  | _ :: tr => doneOf tr

/-- The targets of the attempts of a trace, in order. -/
def attemptsOf : List Event → List Str
  | [] => []
  | .attempt t :: tr => t :: attemptsOf tr
  | _ :: tr => attemptsOf tr

/-! ## `strings.Split` -/

theorem Split_ne_nil (c : Char) (s : Str) : Split c s ≠ [] := by
  cases s with
  | nil => simp [Split]
  | cons x xs =>
    by_cases h : x = c
    · simp [Split, h]
    · cases hs : Split c xs <;> simp [Split, h, hs]

theorem Split_of_not_mem (c : Char) (s : Str) (h : c ∉ s) : Split c s = [s] := by
  induction s with
  | nil => rfl
  | cons x xs ih =>
    have hx : x ≠ c := fun e => h (by simp [e])
    have hxs : c ∉ xs := fun e => h (by simp [e])
    simp [Split, hx, ih hxs]

theorem Split_append_cons (c : Char) (a b : Str) (h : c ∉ a) :
    Split c (a ++ c :: b) = a :: Split c b := by
  induction a with
  | nil => simp [Split]
  | cons x xs ih =>
    have hx : x ≠ c := fun e => h (by simp [e])
    have hxs : c ∉ xs := fun e => h (by simp [e])
    simp [Split, hx, ih hxs]

theorem Split_eq_cons (c : Char) (s t : Str) (ts : List Str) (h : Split c s = t :: ts) :
    c ∉ t ∧ ((ts = [] ∧ s = t) ∨ ∃ b, s = t ++ c :: b ∧ Split c b = ts) := by
  induction s generalizing t ts with
  | nil =>
    simp [Split] at h
    obtain ⟨rfl, rfl⟩ := h
    simp
  | cons x xs ih =>
    by_cases hx : x = c
    · subst hx
      simp [Split] at h
      obtain ⟨rfl, rfl⟩ := h
      simp
    · cases hs : Split c xs with
      | nil => exact absurd hs (Split_ne_nil c xs)
      | cons u us =>
        simp [Split, hx, hs] at h
        obtain ⟨rfl, rfl⟩ := h
        obtain ⟨hu, hrest⟩ := ih u us hs
        refine ⟨by simp [hu, Ne.symm hx], ?_⟩
        rcases hrest with ⟨rfl, rfl⟩ | ⟨b, rfl, hb⟩
        · left; simp
        · right; exact ⟨b, by simp, hb⟩

theorem Split_pair_iff (c : Char) (s a b : Str) :
    Split c s = [a, b] ↔ s = a ++ c :: b ∧ c ∉ a ∧ c ∉ b := by
  constructor
  · intro h
    obtain ⟨ha, hrest⟩ := Split_eq_cons c s a [b] h
    rcases hrest with ⟨h1, _⟩ | ⟨b1, rfl, hb1⟩
    · simp at h1
    · obtain ⟨hb, hrest⟩ := Split_eq_cons c b1 b [] hb1
      rcases hrest with ⟨_, rfl⟩ | ⟨b2, _, hb2⟩
      · exact ⟨rfl, ha, hb⟩
      · exact absurd hb2 (Split_ne_nil c b2)
  · rintro ⟨rfl, ha, hb⟩
    rw [Split_append_cons c a b ha, Split_of_not_mem c b hb]

theorem Split_length (c : Char) (s : Str) : (Split c s).length = s.count c + 1 := by
  induction s with
  | nil => simp [Split]
  | cons x xs ih =>
    by_cases hx : x = c
    · subst hx
      simp [Split, ih]
    · cases hs : Split c xs with
      | nil => exact absurd hs (Split_ne_nil c xs)
      | cons u us =>
        rw [hs] at ih
        simp [Split, hx, hs, List.count_cons] at ih ⊢
        omega

theorem count_eq_zero_iff_not_mem (c : Char) (s : Str) : s.count c = 0 ↔ c ∉ s := by
  simp [List.count_eq_zero]

/-! ## 64 bit integers -/

theorem wrapInt_of_range (x : Int) (h1 : minInt ≤ x) (h2 : x ≤ maxInt) : wrapInt x = x := by
  unfold wrapInt; unfold minInt at h1; unfold maxInt at h2; omega

theorem wrapInt_range (x : Int) : minInt ≤ wrapInt x ∧ wrapInt x ≤ maxInt := by
  unfold wrapInt minInt maxInt; omega

theorem ParseInt_range (s : Str) (n : Int) (h : ParseInt s = .ok n) :
    minInt ≤ n ∧ n ≤ maxInt := by
  unfold ParseInt at h
  cases s with
  | nil => simp at h
  | cons c cs =>
    simp only at h
    split at h
    · simp at h
    · rename_i un hun
      have e63 : (2 : Nat) ^ (intSize - 1) = 9223372036854775808 := by decide
      rw [e63] at h
      by_cases hneg : c = '-'
      · simp only [hneg, decide_True, Bool.not_true, Bool.false_and, Bool.true_and,
          if_true, Bool.false_eq_true, if_false, decide_eq_true_eq] at h
        split_ifs at h with h1
        injection h with h
        subst h
        unfold minInt maxInt; omega
      · simp only [hneg, decide_False, Bool.not_false, Bool.false_and, Bool.true_and,
          Bool.false_eq_true, if_false, decide_eq_true_eq] at h
        split_ifs at h with h1
        injection h with h
        subst h
        unfold minInt maxInt; omega

theorem Atoi_range (s : Str) (n : Int) (h : Atoi s = .ok n) : minInt ≤ n ∧ n ≤ maxInt :=
  ParseInt_range s n h

/-! ## The range loop -/

theorem rangeLoop_endless (fuel : Nat) (i : Int) (ns : PortSet) (hi : i ≤ maxInt) :
    rangeLoop fuel i maxInt ns = none := by
  induction fuel generalizing i ns with
  | zero => rfl
  | succ k ih =>
    simp only [rangeLoop, hi, if_true]
    exact ih _ _ (wrapInt_range _).2

theorem rangeLoop_mem (fuel : Nat) (i e : Int) (ns ns1 : PortSet)
    (hi0 : minInt ≤ i) (he : e ≤ maxInt)
    (h : rangeLoop fuel i e ns = some ns1) (n : Int) :
    n ∈ ns1 ↔ n ∈ ns ∨ (i ≤ n ∧ n ≤ e) := by
  induction fuel generalizing i ns with
  | zero => simp [rangeLoop] at h
  | succ k ih =>
    by_cases hie : i ≤ e
    · simp only [rangeLoop, hie, if_true] at h
      by_cases hmax : e = maxInt
      · subst hmax
        rw [rangeLoop_endless k _ _ (wrapInt_range _).2] at h
        simp at h
      · have he1 : e < maxInt := lt_of_le_of_ne he hmax
        have hw : wrapInt (i + 1) = i + 1 :=
          wrapInt_of_range _ (by omega) (by omega)
        rw [hw] at h
        rw [ih (i + 1) (ns.insert i) (by omega) h]
        simp only [List.mem_insert_iff]
        constructor
        · rintro ((rfl | h1) | ⟨h1, h2⟩)
          · right; exact ⟨le_refl _, hie⟩
          · left; exact h1
          · right; exact ⟨by omega, h2⟩
        · rintro (h1 | ⟨h1, h2⟩)
          · left; right; exact h1
          · by_cases hn : n = i
            · left; left; exact hn
            · right; exact ⟨by omega, h2⟩
    · simp only [rangeLoop, hie, if_false] at h
      cases h
      constructor
      · intro h1; left; exact h1
      · rintro (h1 | ⟨h1, h2⟩)
        · exact h1
        · omega

theorem rangeLoop_nodup (fuel : Nat) (i e : Int) (ns ns1 : PortSet) (hns : ns.Nodup)
    (h : rangeLoop fuel i e ns = some ns1) : ns1.Nodup := by
  induction fuel generalizing i ns with
  | zero => simp [rangeLoop] at h
  | succ k ih =>
    by_cases hie : i ≤ e
    · simp only [rangeLoop, hie, if_true] at h
      exact ih _ _ (hns.insert) h
    · simp only [rangeLoop, hie, if_false] at h
      cases h
      exact hns

theorem rangeLoop_terminates (fuel : Nat) (i e : Int) (ns : PortSet)
    (hi0 : minInt ≤ i) (he : e < maxInt) (hf : (e + 1 - i).toNat < fuel) :
    ∃ ns1, rangeLoop fuel i e ns = some ns1 := by
  induction fuel generalizing i ns with
  | zero => omega
  | succ k ih =>
    by_cases hie : i ≤ e
    · simp only [rangeLoop, hie, if_true]
      have hw : wrapInt (i + 1) = i + 1 :=
        wrapInt_of_range _ (by omega) (by omega)
      rw [hw]
      exact ih (i + 1) _ (by omega) (by omega)
    · exact ⟨ns, by simp only [rangeLoop, hie, if_false]⟩

theorem rangeLoop_fuel_mono (fuel : Nat) (i e : Int) (ns ns1 : PortSet)
    (h : rangeLoop fuel i e ns = some ns1) : rangeLoop (fuel + 1) i e ns = some ns1 := by
  induction fuel generalizing i ns with
  | zero => simp [rangeLoop] at h
  | succ k ih =>
    by_cases hie : i ≤ e
    · simp only [rangeLoop, hie, if_true] at h
      rw [rangeLoop]
      simp only [hie, if_true]
      exact ih _ _ h
    · simp only [rangeLoop, hie, if_false] at h
      rw [rangeLoop]
      simp only [hie, if_false]
      exact h

/-! ## The loop over the tokens -/

theorem TokenPorts_of_pair (r lo hi : Str) (hs : Split '-' r = [lo, hi]) (n : Int) :
    TokenPorts r n ↔ ∃ a b, Atoi lo = .ok a ∧ Atoi hi = .ok b ∧ a ≤ n ∧ n ≤ b := by
  obtain ⟨hr, hlo, hhi⟩ := (Split_pair_iff '-' r lo hi).1 hs
  constructor
  · rintro (⟨h1, _⟩ | ⟨a, b, x, y, hab, ha, hb, hx, hy, h1, h2⟩)
    · exact absurd (by rw [hr]; simp) h1
    · have := (Split_pair_iff '-' r a b).2 ⟨hab, ha, hb⟩
      rw [hs] at this
      simp at this
      obtain ⟨rfl, rfl⟩ := this
      exact ⟨x, y, hx, hy, h1, h2⟩
  · rintro ⟨x, y, hx, hy, h1, h2⟩
    exact Or.inr ⟨lo, hi, x, y, hr, hlo, hhi, hx, hy, h1, h2⟩

theorem TokenPorts_of_single (r : Str) (hr : '-' ∉ r) (n : Int) :
    TokenPorts r n ↔ Atoi r = .ok n := by
  constructor
  · rintro (⟨_, h⟩ | ⟨a, b, x, y, hab, _⟩)
    · exact h
    · exact absurd (by rw [hab]; simp) hr
  · intro h
    exact Or.inl ⟨hr, h⟩

theorem parseLoop_cons_ok (fuel : Nat) (r : Str) (rest : List Str) (ns ns1 : PortSet)
    (h : parseLoop fuel (r :: rest) ns = .ok ns1) :
    (r = [] ∧ parseLoop fuel rest ns = .ok ns1) ∨
    (r ≠ [] ∧ '-' ∉ r ∧ ∃ m, Atoi r = .ok m ∧ parseLoop fuel rest (ns.insert m) = .ok ns1) ∨
    (r ≠ [] ∧ ∃ lo hi a b ns2, Split '-' r = [lo, hi] ∧ lo ≠ [] ∧ hi ≠ [] ∧
      Atoi lo = .ok a ∧ Atoi hi = .ok b ∧ rangeLoop fuel a b ns = some ns2 ∧
      parseLoop fuel rest ns2 = .ok ns1) := by
  rw [parseLoop] at h
  by_cases hr : r = []
  · simp only [hr, if_true] at h
    exact Or.inl ⟨hr, h⟩
  · simp only [hr, if_false] at h
    by_cases hh : '-' ∉ r
    · simp only [hh, not_false_eq_true, if_true] at h
      cases ha : Atoi r with
      | error e => simp [ha] at h
      | ok m =>
        simp only [ha] at h
        exact Or.inr (Or.inl ⟨hr, hh, m, rfl, h⟩)
    · simp only [hh, if_false] at h
      split at h
      · rename_i lo hi hs
        by_cases hlo : lo = []
        · simp [hlo] at h
        · simp only [hlo, if_false] at h
          cases ha : Atoi lo with
          | error e => simp [ha] at h
          | ok a =>
            simp only [ha] at h
            by_cases hhi : hi = []
            · simp [hhi] at h
            · simp only [hhi, if_false] at h
              cases hb : Atoi hi with
              | error e => simp [hb] at h
              | ok b =>
                simp only [hb] at h
                cases hl : rangeLoop fuel a b ns with
                | none => simp [hl] at h
                | some ns2 =>
                  simp only [hl] at h
                  exact Or.inr (Or.inr ⟨hr, lo, hi, a, b, ns2, hs, hlo, hhi, ha, hb, hl, h⟩)
      · simp at h

theorem parseLoop_mem (fuel : Nat) (toks : List Str) (ns ns1 : PortSet)
    (h : parseLoop fuel toks ns = .ok ns1) (n : Int) :
    n ∈ ns1 ↔ n ∈ ns ∨ ∃ tok, tok ∈ toks ∧ tok ≠ [] ∧ TokenPorts tok n := by
  induction toks generalizing ns with
  | nil =>
    simp only [parseLoop] at h
    cases h
    simp
  | cons r rest ih =>
    rcases parseLoop_cons_ok fuel r rest ns ns1 h with
      ⟨hr, h1⟩ | ⟨hr, hh, m, ha, h1⟩ | ⟨hr, lo, hi, a, b, ns2, hs, hlo, hhi, ha, hb, hl, h1⟩
    · rw [ih ns h1]
      subst hr
      simp
    · rw [ih _ h1]
      simp only [List.mem_insert_iff, List.mem_cons, exists_eq_or_imp]
      rw [TokenPorts_of_single r hh, ha]
      simp only [hr, not_false_eq_true, true_and, ne_eq, Except.ok.injEq]
      constructor
      · rintro ((h2 | h2) | h2)
        · right; left; exact h2.symm
        · left; exact h2
        · right; right; exact h2
      · rintro (h2 | h2 | h2)
        · left; right; exact h2
        · left; left; exact h2.symm
        · right; exact h2
    · rw [ih _ h1]
      simp only [List.mem_cons, exists_eq_or_imp]
      rw [rangeLoop_mem fuel a b ns ns2 (Atoi_range _ _ ha).1 (Atoi_range _ _ hb).2 hl,
        TokenPorts_of_pair r lo hi hs, ha, hb]
      simp only [hr, not_false_eq_true, true_and, ne_eq, Except.ok.injEq]
      constructor
      · rintro ((h2 | ⟨h2, h3⟩) | h2)
        · left; exact h2
        · right; left; exact ⟨a, b, rfl, rfl, h2, h3⟩
        · right; right; exact h2
      · rintro (h2 | ⟨x, y, rfl, rfl, h2, h3⟩ | h2)
        · left; left; exact h2
        · left; right; exact ⟨h2, h3⟩
        · right; exact h2

theorem parseLoop_nodup (fuel : Nat) (toks : List Str) (ns ns1 : PortSet) (hns : ns.Nodup)
    (h : parseLoop fuel toks ns = .ok ns1) : ns1.Nodup := by
  induction toks generalizing ns with
  | nil =>
    simp only [parseLoop] at h
    cases h
    exact hns
  | cons r rest ih =>
    rcases parseLoop_cons_ok fuel r rest ns ns1 h with
      ⟨_, h1⟩ | ⟨_, _, m, _, h1⟩ | ⟨_, lo, hi, a, b, ns2, _, _, _, _, _, hl, h1⟩
    · exact ih ns hns h1
    · exact ih _ hns.insert h1
    · exact ih _ (rangeLoop_nodup _ _ _ _ _ hns hl) h1

theorem parseLoop_range (fuel : Nat) (toks : List Str) (ns ns1 : PortSet)
    (hns : ∀ n ∈ ns, minInt ≤ n ∧ n ≤ maxInt)
    (h : parseLoop fuel toks ns = .ok ns1) : ∀ n ∈ ns1, minInt ≤ n ∧ n ≤ maxInt := by
  intro n hn
  rcases (parseLoop_mem fuel toks ns ns1 h n).1 hn with h1 | ⟨tok, _, _, h1⟩
  · exact hns n h1
  · rcases h1 with ⟨_, h2⟩ | ⟨a, b, x, y, _, _, _, hx, hy, h2, h3⟩
    · exact Atoi_range _ _ h2
    · have := Atoi_range _ _ hx
      have := Atoi_range _ _ hy
      exact ⟨by omega, by omega⟩

/-! ## Rendering a port and reading it back -/

theorem digitChar_isDigit : ∀ k, k < 10 →
    (Nat.digitChar k).isDigit = true ∧ (Nat.digitChar k).toNat - 48 = k := by
  decide

theorem parseUintLoop_toDigitsCore (fuel n : Nat) (ds : Str) (hf : n < fuel) (hn : n < 2 ^ 64) :
    parseUintLoop (Nat.toDigitsCore 10 fuel n ds) 0 = parseUintLoop ds n := by
  induction fuel generalizing n ds with
  | zero => omega
  | succ k ih =>
    obtain ⟨hd1, hd2⟩ := digitChar_isDigit (n % 10) (Nat.mod_lt _ (by decide))
    have e64 : (2 : Nat) ^ 64 = 18446744073709551616 := by decide
    rw [e64] at hn
    by_cases h0 : n / 10 = 0
    · simp only [Nat.toDigitsCore, h0, if_true]
      rw [parseUintLoop]
      simp only [hd1, if_true, hd2, e64]
      have hlt : n < 10 := by omega
      have e1 : (0 * 10 + n % 10) % 18446744073709551616 = n := by omega
      rw [e1]
      simp
    · simp only [Nat.toDigitsCore, h0, if_false]
      rw [ih (n / 10) _ (by omega) (by omega)]
      rw [parseUintLoop]
      simp only [hd1, if_true, hd2, e64]
      have e1 : (n / 10 * 10 + n % 10) % 18446744073709551616 = n := by omega
      rw [e1]
      have h1 : ¬ (n / 10 ≥ (18446744073709551616 - 1) / 10 + 1) := by omega
      have h2 : ¬ (n < n / 10 * 10) := by omega
      simp only [h1, h2, if_false]

theorem toDigitsCore_head (fuel n : Nat) (ds : Str) (hf : 0 < fuel) :
    ∃ c cs, Nat.toDigitsCore 10 fuel n ds = c :: cs ∧ (c.isDigit = true ∨ c :: cs = ds) := by
  induction fuel generalizing n ds with
  | zero => omega
  | succ k ih =>
    obtain ⟨hd1, _⟩ := digitChar_isDigit (n % 10) (Nat.mod_lt _ (by decide))
    by_cases h0 : n / 10 = 0
    · exact ⟨Nat.digitChar (n % 10), ds, by simp only [Nat.toDigitsCore, h0, if_true], Or.inl hd1⟩
    · simp only [Nat.toDigitsCore, h0, if_false]
      by_cases hk : 0 < k
      · obtain ⟨c, cs, h1, h2⟩ := ih (n / 10) (Nat.digitChar (n % 10) :: ds) hk
        refine ⟨c, cs, h1, Or.inl ?_⟩
        rcases h2 with h2 | h2
        · exact h2
        · injection h2 with h3 _
          rw [h3]; exact hd1
      · have : k = 0 := by omega
        subst this
        exact ⟨Nat.digitChar (n % 10), ds, by simp [Nat.toDigitsCore], Or.inl hd1⟩

theorem toDigits_head (n : Nat) :
    ∃ c cs, Nat.toDigits 10 n = c :: cs ∧ c.isDigit = true := by
  obtain ⟨c, cs, h1, h2⟩ := toDigitsCore_head (n + 1) n [] (by omega)
  refine ⟨c, cs, h1, ?_⟩
  rcases h2 with h2 | h2
  · exact h2
  · simp at h2

theorem ParseUint_toDigits (n : Nat) (hn : n < 2 ^ 64) :
    ParseUint (Nat.toDigits 10 n) = .ok n := by
  obtain ⟨c, cs, h1, _⟩ := toDigits_head n
  unfold ParseUint
  have hne : Nat.toDigits 10 n ≠ [] := by rw [h1]; simp
  simp only [hne, if_false]
  unfold Nat.toDigits
  rw [parseUintLoop_toDigitsCore (n + 1) n [] (by omega) hn]
  rfl

theorem isDigit_ne_sign (c : Char) (h : c.isDigit = true) : c ≠ '+' ∧ c ≠ '-' := by
  constructor
  · rintro rfl; revert h; decide
  · rintro rfl; revert h; decide

/-- Reading back a rendered `int` gives the `int`. -/
theorem Atoi_Sprintf (n : Int) (h1 : minInt ≤ n) (h2 : n ≤ maxInt) :
    Atoi (Sprintf n) = .ok n := by
  unfold minInt at h1
  unfold maxInt at h2
  have e63 : (2 : Nat) ^ (intSize - 1) = 9223372036854775808 := by decide
  unfold Atoi Sprintf
  by_cases hneg : n < 0
  · simp only [hneg, if_true]
    unfold ParseInt
    have hb : ParseUint (Nat.toDigits 10 n.natAbs) = .ok n.natAbs :=
      ParseUint_toDigits _ (by omega)
    simp only [or_true, if_true, hb, decide_True, Bool.not_true, Bool.false_and,
      Bool.true_and, Bool.false_eq_true, if_false, e63, decide_eq_true_eq]
    have h3 : ¬ (n.natAbs > 9223372036854775808) := by omega
    simp only [h3, if_false]
    congr 1
    omega
  · simp only [hneg, if_false]
    obtain ⟨c, cs, hc, hd⟩ := toDigits_head n.toNat
    obtain ⟨hp, hm⟩ := isDigit_ne_sign c hd
    have hb : ParseUint (Nat.toDigits 10 n.toNat) = .ok n.toNat :=
      ParseUint_toDigits _ (by omega)
    rw [hc] at hb ⊢
    unfold ParseInt
    simp only [hp, hm, or_self, if_false, hb, decide_False, Bool.not_false, Bool.true_and,
      Bool.false_and, Bool.false_eq_true, e63, decide_eq_true_eq]
    have h3 : ¬ (n.toNat ≥ 9223372036854775808) := by omega
    simp only [h3, if_false]
    congr 1
    omega

theorem Sprintf_inj (m n : Int) (hm : minInt ≤ m ∧ m ≤ maxInt) (hn : minInt ≤ n ∧ n ≤ maxInt)
    (h : Sprintf m = Sprintf n) : m = n := by
  have h1 := Atoi_Sprintf m hm.1 hm.2
  rw [h, Atoi_Sprintf n hn.1 hn.2] at h1
  injection h1 with h1
  exact h1.symm

/-! ## The swap and the shuffle -/

theorem swapAt_some {α : Type} (ps : List α) (i j : Nat) (hi : i < ps.length)
    (hj : j < ps.length) : swapAt ps i j = some ((ps.set i ps[j]).set j ps[i]) := by
  unfold swapAt
  rw [List.getElem?_eq_getElem hi, List.getElem?_eq_getElem hj]

theorem swapAt_eq_some {α : Type} (ps ps1 : List α) (i j : Nat) (h : swapAt ps i j = some ps1) :
    ∃ (hi : i < ps.length) (hj : j < ps.length), ps1 = (ps.set i ps[j]).set j ps[i] := by
  by_cases hi : i < ps.length
  · by_cases hj : j < ps.length
    · rw [swapAt_some ps i j hi hj] at h
      injection h with h
      exact ⟨hi, hj, h.symm⟩
    · unfold swapAt at h
      rw [List.getElem?_eq_none (by omega : ps.length ≤ j)] at h
      cases hx : ps[i]? <;> simp [hx] at h
  · unfold swapAt at h
    rw [List.getElem?_eq_none (by omega : ps.length ≤ i)] at h
    simp at h

theorem set_set_perm {α : Type} (ps : List α) (i j : Nat) (hi : i < ps.length)
    (hj : j < ps.length) : ((ps.set i ps[j]).set j ps[i]).Perm ps := by
  classical
  rw [List.perm_iff_count]
  intro b
  rw [List.count_set _ _ _ _ (by simpa using hj), List.count_set _ _ _ _ hi]
  simp only [List.getElem_set, ite_self]
  have hle : (if ps[i] == b then 1 else 0) ≤ ps.count b := by
    by_cases hb : ps[i] = b
    · subst hb
      simp only [beq_self_eq_true, if_true]
      exact List.count_pos_iff.2 (List.getElem_mem hi)
    · simp [hb]
  omega

theorem swapAt_perm {α : Type} (ps ps1 : List α) (i j : Nat) (h : swapAt ps i j = some ps1) :
    ps1.Perm ps := by
  obtain ⟨hi, hj, rfl⟩ := swapAt_eq_some ps ps1 i j h
  exact set_set_perm ps i j hi hj

theorem swapAt_length {α : Type} (ps ps1 : List α) (i j : Nat) (h : swapAt ps i j = some ps1) :
    ps1.length = ps.length := (swapAt_perm ps ps1 i j h).length_eq

theorem randInt_of_good (r : Option Nat) (i j : Nat) (h : r = some j) (hj : j ≤ i) :
    randInt r (i + 1) = some j := by
  unfold randInt
  by_cases h1 : i + 1 = 1
  · have : j = 0 := by omega
    simp [h1, this]
  · simp [h1, h]

theorem randInt_eq_some (r : Option Nat) (i j : Nat) (h : randInt r (i + 1) = some j) :
    (i = 0 ∧ j = 0) ∨ (1 ≤ i ∧ r = some j) := by
  unfold randInt at h
  by_cases h1 : i + 1 = 1
  · simp only [h1, if_true] at h
    injection h with h
    exact Or.inl ⟨by omega, h.symm⟩
  · simp only [h1, if_false] at h
    exact Or.inr ⟨by omega, h⟩

theorem randInt_eq_none (r : Option Nat) (i : Nat) (h : randInt r (i + 1) = none) :
    1 ≤ i ∧ r = none := by
  unfold randInt at h
  by_cases h1 : i + 1 = 1
  · simp [h1] at h
  · simp only [h1, if_false] at h
    exact ⟨by omega, h⟩

/-- With good draws the shuffle loop ends without an error and without a panic,
and it rearranges the slice. -/
theorem shuffleLoop_perm {α : Type} (rnd : Nat → Option Nat) (k i : Nat) (ps : List α)
    (hlen : i + k ≤ ps.length) (hr : ∀ m, i ≤ m → m < i + k → ∃ j, j ≤ m ∧ rnd m = some j) :
    ∃ ps1, shuffleLoop rnd k i ps = .ok ps1 ∧ ps1.Perm ps := by
  induction k generalizing i ps with
  | zero => exact ⟨ps, rfl, List.Perm.refl _⟩
  | succ k ih =>
    obtain ⟨j, hj, hrj⟩ := hr i (le_refl _) (by omega)
    have hs := swapAt_some ps i j (by omega) (by omega)
    have hp := swapAt_perm ps _ i j hs
    obtain ⟨ps2, h1, h2⟩ := ih (i + 1) ((ps.set i ps[j]).set j ps[i])
      (by rw [hp.length_eq]; omega) (fun m hm1 hm2 => hr m (by omega) (by omega))
    refine ⟨ps2, ?_, h2.trans hp⟩
    rw [shuffleLoop]
    simp only [randInt_of_good _ i j hrj hj, hs]
    exact h1

theorem shuffle_perm {α : Type} (rnd : Nat → Option Nat) (ps : List α)
    (hr : GoodDraws rnd ps.length) : ∃ ps1, shuffle rnd ps = .ok ps1 ∧ ps1.Perm ps :=
  shuffleLoop_perm rnd ps.length 0 ps (by omega) (fun m _ hm => hr m (by omega))

/-- Whatever the draws are, a list the shuffle loop returns is a rearrangement
of the slice. -/
theorem shuffleLoop_ok_perm {α : Type} (rnd : Nat → Option Nat) (k i : Nat) (ps ps1 : List α)
    (h : shuffleLoop rnd k i ps = .ok ps1) : ps1.Perm ps := by
  induction k generalizing i ps with
  | zero =>
    simp only [shuffleLoop] at h
    cases h
    exact List.Perm.refl _
  | succ k ih =>
    rw [shuffleLoop] at h
    cases hr : randInt (rnd i) (i + 1) with
    | none => simp [hr] at h
    | some j =>
      simp only [hr] at h
      cases hs : swapAt ps i j with
      | none => simp [hs] at h
      | some ps2 =>
        simp only [hs] at h
        exact (ih _ _ h).trans (swapAt_perm ps ps2 i j hs)

/-! ## `portList`: the ports it returns -/

theorem portList_ok (fuel : Nat) (it : MapIter) (rs : Str) (rnd : Nat → Option Nat)
    (ps : List Str) (h : portList fuel it rs rnd = .ok ps) :
    ∃ ns, portSet fuel rs = .ok ns ∧ shuffle rnd (portStrings it ns) = .ok ps := by
  unfold portList at h
  cases hs : portSet fuel rs with
  | ok ns => rw [hs] at h; exact ⟨ns, rfl, h⟩
  | err e => rw [hs] at h; simp at h
  | indexPanic => rw [hs] at h; simp at h
  | noFuel => rw [hs] at h; simp at h

theorem portSet_mem (fuel : Nat) (rs : Str) (ns : PortSet) (h : portSet fuel rs = .ok ns)
    (n : Int) : n ∈ ns ↔ SpecPorts rs n := by
  unfold portSet at h
  rw [parseLoop_mem fuel _ [] ns h n]
  simp [SpecPorts]

theorem portSet_nodup (fuel : Nat) (rs : Str) (ns : PortSet) (h : portSet fuel rs = .ok ns) :
    ns.Nodup :=
  parseLoop_nodup fuel _ [] ns List.nodup_nil h

theorem portSet_range (fuel : Nat) (rs : Str) (ns : PortSet) (h : portSet fuel rs = .ok ns) :
    ∀ n ∈ ns, minInt ≤ n ∧ n ≤ maxInt :=
  parseLoop_range fuel _ [] ns (by simp) h

theorem portStrings_perm (it : MapIter) (ns : PortSet) :
    (portStrings it ns).Perm (ns.map Sprintf) :=
  (it.perm ns).map Sprintf

theorem map_Sprintf_nodup (ns : PortSet) (hn : ns.Nodup)
    (hr : ∀ n ∈ ns, minInt ≤ n ∧ n ≤ maxInt) : (ns.map Sprintf).Nodup := by
  rw [List.nodup_map_iff_inj_on hn]
  intro x hx y hy hxy
  exact Sprintf_inj x y (hr x hx) (hr y hy) hxy

theorem count_str (a : Str) (l : List Str) :
    l.count a = @List.count Str instBEqOfDecidableEq a l := by
  unfold List.count
  congr 1
  funext s
  rw [@beq_eq_decide _ List.instBEq, @beq_eq_decide _ instBEqOfDecidableEq]

theorem example_SpecPorts (n : Int) :
    SpecPorts "80,443,8000-8002".toList n ↔ n ∈ ([80, 443, 8000, 8001, 8002] : List Int) := by
  have hsplit : Split ',' "80,443,8000-8002".toList
      = ["80".toList, "443".toList, "8000-8002".toList] := by decide
  have h1 : ('-' : Char) ∉ "80".toList := by decide
  have h2 : ('-' : Char) ∉ "443".toList := by decide
  have h3 : Split '-' "8000-8002".toList = ["8000".toList, "8002".toList] := by decide
  have a1 : Atoi "80".toList = .ok 80 := rfl
  have a2 : Atoi "443".toList = .ok 443 := rfl
  have a3 : Atoi "8000".toList = .ok 8000 := rfl
  have a4 : Atoi "8002".toList = .ok 8002 := rfl
  unfold SpecPorts
  rw [hsplit]
  simp only [List.mem_cons, List.mem_singleton, List.not_mem_nil, or_false]
  constructor
  · rintro ⟨tok, (rfl | rfl | rfl), _, ht⟩
    · rw [TokenPorts_of_single _ h1, a1] at ht
      injection ht with ht
      omega
    · rw [TokenPorts_of_single _ h2, a2] at ht
      injection ht with ht
      omega
    · rw [TokenPorts_of_pair _ _ _ h3, a3, a4] at ht
      obtain ⟨a, b, ha, hb, hab1, hab2⟩ := ht
      injection ha with ha
      injection hb with hb
      omega
  · intro h
    have hcases : n = 80 ∨ n = 443 ∨ (8000 ≤ n ∧ n ≤ 8002) := by omega
    rcases hcases with rfl | rfl | ⟨h4, h5⟩
    · exact ⟨_, Or.inl rfl, by decide, (TokenPorts_of_single _ h1 _).2 a1⟩
    · exact ⟨_, Or.inr (Or.inl rfl), by decide, (TokenPorts_of_single _ h2 _).2 a2⟩
    · exact ⟨_, Or.inr (Or.inr rfl), by decide,
        (TokenPorts_of_pair _ _ _ h3 _).2 ⟨8000, 8002, a3, a4, h4, h5⟩⟩

/-- C1: when `portList` succeeds on a specification, the ports it returns, read
as integers, are exactly the union over the non-empty comma-separated tokens of
the single port of a single-integer token and the ports `lo..hi` of a range
token; every returned text is the rendering of such a port; a range whose lower
bound exceeds its upper bound stands for no port, and its range loop adds none;
and on "80,443,8000-8002" the ports are exactly 80, 443, 8000, 8001 and 8002. -/
theorem C1_portList_ports (fuel : Nat) (it : MapIter) (rs : Str) (rnd : Nat → Option Nat)
    (ps : List Str) (h : portList fuel it rs rnd = .ok ps) :
    (∀ n : Int, (∃ s, s ∈ ps ∧ Atoi s = .ok n) ↔ SpecPorts rs n) ∧
    (∀ s, s ∈ ps → ∃ n, s = Sprintf n ∧ SpecPorts rs n) ∧
    (∀ a b lo hi n, '-' ∉ a → '-' ∉ b → Atoi a = .ok lo → Atoi b = .ok hi → hi < lo →
      ¬ TokenPorts (a ++ '-' :: b) n) ∧
    (∀ (f : Nat) (lo hi : Int) (ms : PortSet), hi < lo → rangeLoop (f + 1) lo hi ms = some ms) ∧
    (rs = "80,443,8000-8002".toList →
      ∀ n : Int, (∃ s, s ∈ ps ∧ Atoi s = .ok n) ↔ n ∈ ([80, 443, 8000, 8001, 8002] : List Int)) := by
  obtain ⟨ns, hset, hsh⟩ := portList_ok fuel it rs rnd ps h
  have hperm : ps.Perm (ns.map Sprintf) :=
    (shuffleLoop_ok_perm rnd _ 0 _ ps hsh).trans (portStrings_perm it ns)
  have hrange := portSet_range fuel rs ns hset
  have hmem : ∀ s, s ∈ ps ↔ ∃ k, k ∈ ns ∧ Sprintf k = s := by
    intro s
    rw [hperm.mem_iff, List.mem_map]
  have key : ∀ n : Int, (∃ s, s ∈ ps ∧ Atoi s = .ok n) ↔ SpecPorts rs n := by
    intro n
    rw [← portSet_mem fuel rs ns hset n]
    constructor
    · rintro ⟨s, hs, ha⟩
      obtain ⟨k, hk, rfl⟩ := (hmem s).1 hs
      rw [Atoi_Sprintf k (hrange k hk).1 (hrange k hk).2] at ha
      injection ha with ha
      rw [← ha]; exact hk
    · intro hn
      exact ⟨Sprintf n, (hmem _).2 ⟨n, hn, rfl⟩, Atoi_Sprintf n (hrange n hn).1 (hrange n hn).2⟩
  refine ⟨key, ?_, ?_, ?_, ?_⟩
  · intro s hs
    obtain ⟨k, hk, rfl⟩ := (hmem s).1 hs
    exact ⟨k, rfl, (portSet_mem fuel rs ns hset k).1 hk⟩
  · intro a b lo hi n ha hb hlo hhi hlt ht
    rw [TokenPorts_of_pair _ a b ((Split_pair_iff '-' _ a b).2 ⟨rfl, ha, hb⟩), hlo, hhi] at ht
    obtain ⟨x, y, hx, hy, h1, h2⟩ := ht
    injection hx with hx
    injection hy with hy
    omega
  · intro f lo hi ms hlt
    have hnot : ¬ lo ≤ hi := by omega
    simp only [rangeLoop, hnot, if_false]
  · intro hrs n
    rw [key n, hrs, example_SpecPorts n]

/-- C1 at the specification "80,443,8000-8002", with the keys of the map
visited in reverse order and every draw equal to 0. -/
theorem C1_portList_ports_witness :
    portList 4 MapIter.reversed "80,443,8000-8002".toList (fun _ => some 0)
      = .ok ["8002".toList, "80".toList, "443".toList, "8000".toList, "8001".toList] ∧
    ∀ n : Int, (∃ s, s ∈ ["8002".toList, "80".toList, "443".toList, "8000".toList, "8001".toList]
      ∧ Atoi s = .ok n) ↔ n ∈ ([80, 443, 8000, 8001, 8002] : List Int) :=
  ⟨by decide, (C1_portList_ports 4 MapIter.reversed "80,443,8000-8002".toList (fun _ => some 0)
    ["8002".toList, "80".toList, "443".toList, "8000".toList, "8001".toList]
    (by decide)).2.2.2.2 rfl⟩

/-! ## `portList`: the shuffle keeps the ports -/

/-- C2: when the parsing of a specification yields the port set `ns` and the
draws of the shuffle succeed with the draw at index `i` in `[0, i]`, `portList`
returns a sequence (no error, and no swap index out of bounds) that is a
permutation of the renderings of `ns`: it has no duplicate, its length is the
size of `ns`, it holds the rendering of each port of `ns` exactly once and
nothing else. -/
theorem C2_portList_permutation (fuel : Nat) (it : MapIter) (rs : Str) (rnd : Nat → Option Nat)
    (ns : PortSet) (hset : portSet fuel rs = .ok ns) (hr : GoodDraws rnd ns.length) :
    ∃ ps, portList fuel it rs rnd = .ok ps ∧
      ps.Perm (ns.map Sprintf) ∧ ns.Nodup ∧ ps.Nodup ∧ ps.length = ns.length ∧
      (∀ n, n ∈ ns → ps.count (Sprintf n) = 1) ∧
      (∀ s, s ∈ ps → ∃ n, n ∈ ns ∧ s = Sprintf n) ∧
      (∀ i j, i < ps.length → rnd i = some j → j < ps.length) := by
  have hlen : (portStrings it ns).length = ns.length := by
    simpa using (portStrings_perm it ns).length_eq
  obtain ⟨ps, hps, hperm0⟩ := shuffle_perm rnd (portStrings it ns) (by rw [hlen]; exact hr)
  have hperm : ps.Perm (ns.map Sprintf) := hperm0.trans (portStrings_perm it ns)
  have hnd := portSet_nodup fuel rs ns hset
  have hndm := map_Sprintf_nodup ns hnd (portSet_range fuel rs ns hset)
  have hndp : ps.Nodup := hperm.nodup_iff.2 hndm
  have hl : ps.length = ns.length := by simpa using hperm.length_eq
  refine ⟨ps, ?_, hperm, hnd, hndp, hl, ?_, ?_, ?_⟩
  · unfold portList
    rw [hset]
    exact hps
  · intro n hn
    rw [count_str]
    exact List.count_eq_one_of_mem hndp (hperm.mem_iff.2 (List.mem_map.2 ⟨n, hn, rfl⟩))
  · intro s hs
    obtain ⟨n, hn, rfl⟩ := List.mem_map.1 (hperm.mem_iff.1 hs)
    exact ⟨n, hn, rfl⟩
  · intro i j hi hj
    obtain ⟨j1, hj1, hj2⟩ := hr i (by omega)
    rw [hj2] at hj
    injection hj with hj
    omega

/-- C2 at the specification "80,443,8000-8002" with every draw equal to 0. -/
theorem C2_portList_permutation_witness :
    ∃ ps, portList 4 MapIter.insertion "80,443,8000-8002".toList (fun _ => some 0) = .ok ps ∧
      ps.Perm (([8002, 8001, 8000, 443, 80] : List Int).map Sprintf) ∧
      ([8002, 8001, 8000, 443, 80] : List Int).Nodup ∧ ps.Nodup ∧
      ps.length = ([8002, 8001, 8000, 443, 80] : List Int).length ∧
      (∀ n, n ∈ ([8002, 8001, 8000, 443, 80] : List Int) → ps.count (Sprintf n) = 1) ∧
      (∀ s, s ∈ ps → ∃ n, n ∈ ([8002, 8001, 8000, 443, 80] : List Int) ∧ s = Sprintf n) ∧
      (∀ i j, i < ps.length → (fun _ => some 0 : Nat → Option Nat) i = some j → j < ps.length) :=
  C2_portList_permutation 4 MapIter.insertion "80,443,8000-8002".toList (fun _ => some 0)
    [8002, 8001, 8000, 443, 80] (by decide) (fun i _ => ⟨0, Nat.zero_le i, rfl⟩)

/-! ## `portList`: when it returns an error -/

/-- What the code tests on a non-empty token, in terms of the words of the
specification. -/
theorem Malformed_iff (r : Str) :
    Malformed r ↔
      (('-' ∉ r ∧ ¬ ValidInt r) ∨
       ('-' ∈ r ∧ ∀ lo hi, Split '-' r = [lo, hi] →
          (lo = [] ∨ ¬ ValidInt lo ∨ hi = [] ∨ ¬ ValidInt hi))) := by
  unfold Malformed
  have hlen := Split_length '-' r
  constructor
  · rintro (⟨h0, hv⟩ | h2 | ⟨h1, a, b, hab, hbad⟩)
    · exact Or.inl ⟨(count_eq_zero_iff_not_mem _ _).1 h0, hv⟩
    · right
      refine ⟨?_, ?_⟩
      · by_contra hc
        have := (count_eq_zero_iff_not_mem _ _).2 hc
        omega
      · intro lo hi hs
        rw [hs] at hlen
        simp at hlen
        omega
    · right
      have hmem : '-' ∈ r := by rw [hab]; simp
      refine ⟨hmem, ?_⟩
      intro lo hi hs
      have hcount : (a ++ '-' :: b).count '-' = 1 := by rw [← hab]; exact h1
      rw [List.count_append, List.count_cons_self] at hcount
      have ha : '-' ∉ a := (count_eq_zero_iff_not_mem _ _).1 (by omega)
      have hb : '-' ∉ b := (count_eq_zero_iff_not_mem _ _).1 (by omega)
      have := (Split_pair_iff '-' r a b).2 ⟨hab, ha, hb⟩
      rw [hs] at this
      simp at this
      obtain ⟨rfl, rfl⟩ := this
      exact hbad
  · rintro (⟨h0, hv⟩ | ⟨hmem, hall⟩)
    · exact Or.inl ⟨(count_eq_zero_iff_not_mem _ _).2 h0, hv⟩
    · have hpos : 0 < r.count '-' := List.count_pos_iff.2 hmem
      by_cases h1 : r.count '-' = 1
      · right; right
        refine ⟨h1, ?_⟩
        cases hs : Split '-' r with
        | nil => exact absurd hs (Split_ne_nil _ _)
        | cons lo tl =>
          cases tl with
          | nil => rw [hs] at hlen; simp at hlen; omega
          | cons hi tl2 =>
            cases tl2 with
            | nil =>
              obtain ⟨hab, _, _⟩ := (Split_pair_iff '-' r lo hi).1 hs
              exact ⟨lo, hi, hab, hall lo hi hs⟩
            | cons x xs => rw [hs] at hlen; simp at hlen; omega
      · right; left; omega

theorem ValidInt_iff (s : Str) : ValidInt s ↔ ∃ n, Atoi s = .ok n := Iff.rfl

theorem not_ValidInt_iff (s : Str) : ¬ ValidInt s ↔ ∃ e, Atoi s = .error e := by
  unfold ValidInt
  cases h : Atoi s with
  | error e => simp
  | ok n => simp

/-- One step of the loop over the tokens: an empty token is skipped, a
malformed one ends the loop with an error that is not the error of a draw, a
well-formed one lets the loop go on (or uses up the fuel). -/
theorem parseLoop_step (fuel : Nat) (r : Str) (rest : List Str) (ns : PortSet) :
    (r = [] ∧ parseLoop fuel (r :: rest) ns = parseLoop fuel rest ns) ∨
    (r ≠ [] ∧ Malformed r ∧ ∃ e, e ≠ PortErr.rand ∧ parseLoop fuel (r :: rest) ns = .err e) ∨
    (r ≠ [] ∧ ¬ Malformed r ∧
      ((∃ ns1, parseLoop fuel (r :: rest) ns = parseLoop fuel rest ns1) ∨
       parseLoop fuel (r :: rest) ns = .noFuel)) := by
  by_cases hr : r = []
  · left
    refine ⟨hr, ?_⟩
    rw [parseLoop]
    simp only [hr, if_true]
  · right
    rw [Malformed_iff]
    by_cases hh : '-' ∉ r
    · cases ha : Atoi r with
      | error e =>
        left
        refine ⟨hr, Or.inl ⟨hh, (not_ValidInt_iff r).2 ⟨e, ha⟩⟩, PortErr.atoi r e, by simp, ?_⟩
        rw [parseLoop]
        simp only [hr, if_false, hh, not_false_eq_true, if_true, ha]
      | ok n =>
        right
        refine ⟨hr, ?_, Or.inl ⟨ns.insert n, ?_⟩⟩
        · rintro (⟨_, hv⟩ | ⟨hm, _⟩)
          · exact hv ⟨n, ha⟩
          · exact hh hm
        · rw [parseLoop]
          simp only [hr, if_false, hh, not_false_eq_true, if_true, ha]
    · have hmem : '-' ∈ r := not_not.1 hh
      by_cases hs : ∃ lo hi, Split '-' r = [lo, hi]
      · obtain ⟨lo, hi, hs⟩ := hs
        by_cases hlo : lo = []
        · left
          refine ⟨hr, Or.inr ⟨hmem, ?_⟩, PortErr.missingLower, by simp, ?_⟩
          · intro a b hab
            rw [hs] at hab
            simp at hab
            obtain ⟨rfl, rfl⟩ := hab
            exact Or.inl hlo
          · rw [parseLoop]
            simp only [hr, if_false, hh, hs, hlo, if_true]
        · cases ha : Atoi lo with
          | error e =>
            left
            refine ⟨hr, Or.inr ⟨hmem, ?_⟩, PortErr.atoi lo e, by simp, ?_⟩
            · intro a b hab
              rw [hs] at hab
              simp at hab
              obtain ⟨rfl, rfl⟩ := hab
              exact Or.inr (Or.inl ((not_ValidInt_iff _).2 ⟨e, ha⟩))
            · rw [parseLoop]
              simp only [hr, if_false, hh, hs, hlo, ha]
          | ok x =>
            by_cases hhi : hi = []
            · left
              refine ⟨hr, Or.inr ⟨hmem, ?_⟩, PortErr.missingUpper, by simp, ?_⟩
              · intro a b hab
                rw [hs] at hab
                simp at hab
                obtain ⟨rfl, rfl⟩ := hab
                exact Or.inr (Or.inr (Or.inl hhi))
              · rw [parseLoop]
                simp only [hr, if_false, hh, hs, hlo, ha, hhi, if_true]
            · cases hb : Atoi hi with
              | error e =>
                left
                refine ⟨hr, Or.inr ⟨hmem, ?_⟩, PortErr.atoi hi e, by simp, ?_⟩
                · intro a b hab
                  rw [hs] at hab
                  simp at hab
                  obtain ⟨rfl, rfl⟩ := hab
                  exact Or.inr (Or.inr (Or.inr ((not_ValidInt_iff _).2 ⟨e, hb⟩)))
                · rw [parseLoop]
                  simp only [hr, if_false, hh, hs, hlo, ha, hhi, hb]
              | ok y =>
                right
                refine ⟨hr, ?_, ?_⟩
                · rintro (⟨hm, _⟩ | ⟨_, hall⟩)
                  · exact hm hmem
                  · rcases hall lo hi hs with h1 | h1 | h1 | h1
                    · exact hlo h1
                    · exact h1 ⟨x, ha⟩
                    · exact hhi h1
                    · exact h1 ⟨y, hb⟩
                · cases hl : rangeLoop fuel x y ns with
                  | none =>
                    right
                    rw [parseLoop]
                    simp only [hr, if_false, hh, hs, hlo, ha, hhi, hb, hl]
                  | some ns2 =>
                    left
                    refine ⟨ns2, ?_⟩
                    rw [parseLoop]
                    simp only [hr, if_false, hh, hs, hlo, ha, hhi, hb, hl]
      · left
        refine ⟨hr, Or.inr ⟨hmem, ?_⟩, PortErr.notTwoNumbers, by simp, ?_⟩
        · intro a b hab
          exact absurd ⟨a, b, hab⟩ hs
        · rw [parseLoop]
          simp only [hr, if_false, hh]
          split
          · rename_i lo hi hs1
            exact absurd ⟨lo, hi, hs1⟩ hs
          · rfl

/-- The loop over the tokens ends in one of three ways: out of fuel, with an
error (no draw error) and a malformed token, or with a port set and no
malformed token. -/
theorem parseLoop_cases (fuel : Nat) (toks : List Str) (ns : PortSet) :
    parseLoop fuel toks ns = .noFuel ∨
    ((∃ e, e ≠ PortErr.rand ∧ parseLoop fuel toks ns = .err e) ∧
      ∃ tok, tok ∈ toks ∧ tok ≠ [] ∧ Malformed tok) ∨
    ((∃ ns1, parseLoop fuel toks ns = .ok ns1) ∧
      ¬ ∃ tok, tok ∈ toks ∧ tok ≠ [] ∧ Malformed tok) := by
  induction toks generalizing ns with
  | nil => right; right; exact ⟨⟨ns, rfl⟩, by simp⟩
  | cons r rest ih =>
    have lift : ∀ ns1, parseLoop fuel (r :: rest) ns = parseLoop fuel rest ns1 →
        (r = [] ∨ ¬ Malformed r) →
        (parseLoop fuel (r :: rest) ns = .noFuel ∨
        ((∃ e, e ≠ PortErr.rand ∧ parseLoop fuel (r :: rest) ns = .err e) ∧
          ∃ tok, tok ∈ r :: rest ∧ tok ≠ [] ∧ Malformed tok) ∨
        ((∃ ns1, parseLoop fuel (r :: rest) ns = .ok ns1) ∧
          ¬ ∃ tok, tok ∈ r :: rest ∧ tok ≠ [] ∧ Malformed tok)) := by
      intro ns1 heq hgood
      rw [heq]
      rcases ih ns1 with h | ⟨h, tok, h1, h2, h3⟩ | ⟨h, hno⟩
      · exact Or.inl h
      · exact Or.inr (Or.inl ⟨h, tok, List.mem_cons_of_mem _ h1, h2, h3⟩)
      · refine Or.inr (Or.inr ⟨h, ?_⟩)
        rintro ⟨tok, h1, h2, h3⟩
        rcases List.mem_cons.1 h1 with rfl | h1
        · rcases hgood with hg | hg
          · exact h2 hg
          · exact hg h3
        · exact hno ⟨tok, h1, h2, h3⟩
    rcases parseLoop_step fuel r rest ns with
      ⟨hr, heq⟩ | ⟨hr, hm, e, he, heq⟩ | ⟨hr, hm, ⟨ns1, heq⟩ | heq⟩
    · exact lift ns heq (Or.inl hr)
    · exact Or.inr (Or.inl ⟨⟨e, he, heq⟩, r, List.mem_cons_self _ _, hr, hm⟩)
    · exact lift ns1 heq (Or.inr hm)
    · exact Or.inl heq

theorem parseLoop_cons_noFuel (fuel : Nat) (r : Str) (rest : List Str) (ns : PortSet)
    (h : parseLoop fuel (r :: rest) ns = .noFuel) :
    (∃ ns1, parseLoop fuel rest ns1 = .noFuel) ∨
    (∃ lo hi x y, Split '-' r = [lo, hi] ∧ Atoi lo = .ok x ∧ Atoi hi = .ok y ∧
      rangeLoop fuel x y ns = none) := by
  rw [parseLoop] at h
  by_cases hr : r = []
  · simp only [hr, if_true] at h
    exact Or.inl ⟨ns, h⟩
  · simp only [hr, if_false] at h
    by_cases hh : '-' ∉ r
    · simp only [hh, not_false_eq_true, if_true] at h
      cases ha : Atoi r with
      | error e => simp [ha] at h
      | ok m =>
        simp only [ha] at h
        exact Or.inl ⟨_, h⟩
    · simp only [hh, if_false] at h
      split at h
      · rename_i lo hi hs
        by_cases hlo : lo = []
        · simp [hlo] at h
        · simp only [hlo, if_false] at h
          cases ha : Atoi lo with
          | error e => simp [ha] at h
          | ok a =>
            simp only [ha] at h
            by_cases hhi : hi = []
            · simp [hhi] at h
            · simp only [hhi, if_false] at h
              cases hb : Atoi hi with
              | error e => simp [hb] at h
              | ok b =>
                simp only [hb] at h
                cases hl : rangeLoop fuel a b ns with
                | none => exact Or.inr ⟨lo, hi, a, b, hs, ha, hb, hl⟩
                | some ns2 =>
                  simp only [hl] at h
                  exact Or.inl ⟨ns2, h⟩
      · simp at h

/-- When no range token has the largest `int` as its upper bound, the loop over
the tokens ends for every large enough fuel. -/
theorem parseLoop_total (toks : List Str) (hend : ∀ tok, tok ∈ toks → ¬ EndlessRange tok) :
    ∃ F, ∀ fuel, F ≤ fuel → ∀ ns, parseLoop fuel toks ns ≠ .noFuel := by
  induction toks with
  | nil =>
    refine ⟨0, fun fuel _ ns => ?_⟩
    simp [parseLoop]
  | cons r rest ih =>
    obtain ⟨F, hF⟩ := ih (fun tok ht => hend tok (List.mem_cons_of_mem _ ht))
    by_cases hp : ∃ lo hi x y, Split '-' r = [lo, hi] ∧ Atoi lo = .ok x ∧ Atoi hi = .ok y
    · obtain ⟨lo, hi, x, y, hs, hx, hy⟩ := hp
      refine ⟨max F ((y + 1 - x).toNat + 1), fun fuel hfuel ns hno => ?_⟩
      rcases parseLoop_cons_noFuel fuel r rest ns hno with ⟨ns1, h1⟩ | ⟨a, b, u, v, hab, hu, hv, hl⟩
      · exact hF fuel (le_trans (le_max_left _ _) hfuel) ns1 h1
      · rw [hs] at hab
        simp at hab
        obtain ⟨rfl, rfl⟩ := hab
        rw [hx] at hu
        rw [hy] at hv
        injection hu with hu
        injection hv with hv
        subst hu hv
        obtain ⟨hr, hlo, hhi⟩ := (Split_pair_iff '-' r lo hi).1 hs
        have hymax : y ≠ maxInt := by
          intro hmax
          exact hend r (List.mem_cons_self _ _) ⟨lo, hi, x, hr, hlo, hhi, hx, hmax ▸ hy⟩
        have hylt : y < maxInt := lt_of_le_of_ne (Atoi_range _ _ hy).2 hymax
        have hfu : (y + 1 - x).toNat < fuel := by
          have := le_trans (le_max_right F ((y + 1 - x).toNat + 1)) hfuel
          omega
        obtain ⟨ns1, h1⟩ := rangeLoop_terminates fuel x y ns (Atoi_range _ _ hx).1 hylt hfu
        rw [h1] at hl
        simp at hl
    · refine ⟨F, fun fuel hfuel ns hno => ?_⟩
      rcases parseLoop_cons_noFuel fuel r rest ns hno with ⟨ns1, h1⟩ | ⟨a, b, u, v, hab, hu, hv, _⟩
      · exact hF fuel hfuel ns1 h1
      · exact hp ⟨a, b, u, v, hab, hu, hv⟩

/-- The shuffle loop under the contract of `rand.Int` (a value it returns at
index `i` is at most `i`): it ends with a slice when no draw from index 1 on
fails, and with the error of the draw when one does; it never panics. -/
theorem shuffleLoop_cases {α : Type} (rnd : Nat → Option Nat)
    (hc : ∀ i j, rnd i = some j → j ≤ i) (k i : Nat) (ps : List α)
    (hlen : i + k ≤ ps.length) :
    ((∃ ps1, shuffleLoop rnd k i ps = .ok ps1) ∧
      ∀ m, i ≤ m → m < i + k → 1 ≤ m → rnd m ≠ none) ∨
    (shuffleLoop rnd k i ps = .err .rand ∧
      ∃ m, i ≤ m ∧ m < i + k ∧ 1 ≤ m ∧ rnd m = none) := by
  induction k generalizing i ps with
  | zero =>
    left
    exact ⟨⟨ps, rfl⟩, fun m h1 h2 => by omega⟩
  | succ k ih =>
    cases hr : randInt (rnd i) (i + 1) with
    | none =>
      obtain ⟨h1, h2⟩ := randInt_eq_none _ i hr
      right
      refine ⟨?_, i, le_refl _, by omega, h1, h2⟩
      rw [shuffleLoop]
      simp only [hr]
    | some j =>
      have hji : j ≤ i := by
        rcases randInt_eq_some _ i j hr with ⟨_, h0⟩ | ⟨_, h1⟩
        · omega
        · exact hc i j h1
      have hs := swapAt_some ps i j (by omega) (by omega)
      have hunf : shuffleLoop rnd (k + 1) i ps
          = shuffleLoop rnd k (i + 1) ((ps.set i ps[j]).set j ps[i]) := by
        rw [shuffleLoop]
        simp only [hr, hs]
      rw [hunf]
      have hl : i + 1 + k ≤ ((ps.set i ps[j]).set j ps[i]).length := by
        simp only [List.length_set]
        omega
      rcases ih (i + 1) _ hl with ⟨hok, hall⟩ | ⟨herr, m, h1, h2, h3, h4⟩
      · left
        refine ⟨hok, ?_⟩
        intro m h1 h2 h3
        by_cases hmi : m = i
        · subst hmi
          rcases randInt_eq_some _ m j hr with ⟨h0, _⟩ | ⟨_, h5⟩
          · omega
          · rw [h5]; simp
        · exact hall m (by omega) (by omega) h3
      · right
        exact ⟨herr, m, by omega, by omega, h3, h4⟩

/-- How a run of `portList` ends, under the contract of `rand.Int`. -/
theorem portList_cases (fuel : Nat) (it : MapIter) (rs : Str) (rnd : Nat → Option Nat)
    (hc : ∀ i j, rnd i = some j → j ≤ i) :
    (portSet fuel rs = .noFuel ∧ portList fuel it rs rnd = .noFuel) ∨
    ((∃ e, e ≠ PortErr.rand ∧ portSet fuel rs = .err e ∧ portList fuel it rs rnd = .err e) ∧
      HasMalformed rs) ∨
    (∃ ns, portSet fuel rs = .ok ns ∧ ¬ HasMalformed rs ∧
      (((∃ ps, portList fuel it rs rnd = .ok ps) ∧
          ∀ m, 1 ≤ m → m < ns.length → rnd m ≠ none) ∨
       (portList fuel it rs rnd = .err .rand ∧
          ∃ m, 1 ≤ m ∧ m < ns.length ∧ rnd m = none))) := by
  have hunf : portSet fuel rs = parseLoop fuel (Split ',' rs) [] := rfl
  rcases parseLoop_cases fuel (Split ',' rs) [] with h | ⟨⟨e, he, h⟩, hm⟩ | ⟨⟨ns, h⟩, hm⟩
  · left
    refine ⟨hunf.trans h, ?_⟩
    unfold portList
    rw [hunf, h]
  · right; left
    refine ⟨⟨e, he, hunf.trans h, ?_⟩, hm⟩
    unfold portList
    rw [hunf, h]
  · right; right
    refine ⟨ns, hunf.trans h, hm, ?_⟩
    have hpl : portList fuel it rs rnd = shuffle rnd (portStrings it ns) := by
      unfold portList
      rw [hunf, h]
    have hlen : (portStrings it ns).length = ns.length := by
      simpa using (portStrings_perm it ns).length_eq
    rw [hpl]
    rcases shuffleLoop_cases rnd hc (portStrings it ns).length 0 (portStrings it ns) (by omega)
      with ⟨hok, hall⟩ | ⟨herr, m, _, h2, h3, h4⟩
    · left
      exact ⟨hok, fun m h1 h2 => hall m (Nat.zero_le _) (by omega) h1⟩
    · right
      exact ⟨herr, m, h3, by omega, h4⟩

theorem portList_empty (fuel : Nat) (it : MapIter) (rs : Str) (rnd : Nat → Option Nat)
    (h : portSet fuel rs = .ok []) : portList fuel it rs rnd = .ok [] := by
  unfold portList
  rw [h]
  have : portStrings it [] = [] := by
    unfold portStrings
    rw [List.Perm.eq_nil (it.perm [])]
    rfl
  simp only [this]
  rfl

/-- A single port is returned whatever the reader does: the only draw has the
bound 1 and reads nothing. -/
theorem portList_single (fuel : Nat) (it : MapIter) (rs : Str) (rnd : Nat → Option Nat)
    (n : Int) (h : portSet fuel rs = .ok [n]) : portList fuel it rs rnd = .ok [Sprintf n] := by
  unfold portList
  rw [h]
  have : portStrings it [n] = [Sprintf n] := by
    unfold portStrings
    rw [List.perm_singleton.1 (it.perm [n])]
    rfl
  simp only [this]
  simp [shuffle, shuffleLoop, randInt, swapAt]

/-- C3 (amended): under the contract of `rand.Int` (a value it returns at index
`i` is at most `i`), a run of `portList` that ends returns an error exactly
when some non-empty comma-separated token is malformed (no hyphen and no valid
integer, more than one hyphen, or one hyphen and a bound that is empty or no
valid integer) or a draw of the shuffle fails at an index from 1 on that is
below the number of ports; the error is the draw's exactly when no token is
malformed;
the run returns a port list exactly when no token is malformed and no such
draw fails; when no draw fails, it returns an error exactly when a token is
malformed.  The run ends for every large enough fuel when no range token has
the largest `int` as its upper bound.  "10-", "-20", "1-2-3", "abc" and
"5--6" give an error, "" and ",,," the empty port list and no error, and a
single port is returned without any draw from the reader. -/
theorem C3_portList_error (it : MapIter) (rs : Str) (rnd : Nat → Option Nat)
    (hc : ∀ i j, rnd i = some j → j ≤ i) :
    (∀ fuel, portList fuel it rs rnd ≠ .noFuel →
      ((∃ e, portList fuel it rs rnd = .err e) ↔
        (HasMalformed rs ∨
          ∃ ns i, portSet fuel rs = .ok ns ∧ 1 ≤ i ∧ i < ns.length ∧ rnd i = none))) ∧
    (∀ fuel e, portList fuel it rs rnd = .err e → (e = PortErr.rand ↔ ¬ HasMalformed rs)) ∧
    (∀ fuel, portList fuel it rs rnd ≠ .noFuel →
      ((∃ ps, portList fuel it rs rnd = .ok ps) ↔
        (¬ HasMalformed rs ∧
          ∀ ns i, portSet fuel rs = .ok ns → 1 ≤ i → i < ns.length → rnd i ≠ none))) ∧
    ((∀ i, rnd i ≠ none) → ∀ fuel, portList fuel it rs rnd ≠ .noFuel →
      ((∃ e, portList fuel it rs rnd = .err e) ↔ HasMalformed rs)) ∧
    ((∀ tok, tok ∈ Split ',' rs → ¬ EndlessRange tok) →
      ∃ F, ∀ fuel, F ≤ fuel → portList fuel it rs rnd ≠ .noFuel) ∧
    (∀ fuel (it1 : MapIter) (rnd1 : Nat → Option Nat),
      portList fuel it1 "10-".toList rnd1 = .err .missingUpper ∧
      portList fuel it1 "-20".toList rnd1 = .err .missingLower ∧
      portList fuel it1 "1-2-3".toList rnd1 = .err .notTwoNumbers ∧
      portList fuel it1 "abc".toList rnd1 = .err (.atoi "abc".toList .errSyn) ∧
      portList fuel it1 "5--6".toList rnd1 = .err .notTwoNumbers ∧
      portList fuel it1 "".toList rnd1 = .ok [] ∧
      portList fuel it1 ",,,".toList rnd1 = .ok [] ∧
      portList fuel it1 "80".toList rnd1 = .ok ["80".toList]) := by
  have key := fun fuel => portList_cases fuel it rs rnd hc
  have first : ∀ fuel, portList fuel it rs rnd ≠ .noFuel →
      ((∃ e, portList fuel it rs rnd = .err e) ↔
        (HasMalformed rs ∨
          ∃ ns i, portSet fuel rs = .ok ns ∧ 1 ≤ i ∧ i < ns.length ∧ rnd i = none)) := by
    intro fuel hne
    rcases key fuel with ⟨_, h⟩ | ⟨⟨e, _, _, h⟩, hm⟩ |
      ⟨ns, hs, hm, ⟨⟨ps, h⟩, hall⟩ | ⟨h, m, h1, h2, h3⟩⟩
    · exact absurd h hne
    · exact ⟨fun _ => Or.inl hm, fun _ => ⟨e, h⟩⟩
    · constructor
      · rintro ⟨e, he⟩
        rw [h] at he
        simp at he
      · rintro (hm1 | ⟨ns1, i, hs1, h1, h2, h3⟩)
        · exact absurd hm1 hm
        · rw [hs] at hs1
          injection hs1 with hs1
          subst hs1
          exact absurd h3 (hall i h1 h2)
    · exact ⟨fun _ => Or.inr ⟨ns, m, hs, h1, h2, h3⟩, fun _ => ⟨_, h⟩⟩
  refine ⟨first, ?_, ?_, ?_, ?_, ?_⟩
  · intro fuel e he
    rcases key fuel with ⟨_, h⟩ | ⟨⟨e1, hne, _, h⟩, hm⟩ |
      ⟨ns, hs, hm, ⟨⟨ps, h⟩, hall⟩ | ⟨h, _⟩⟩
    · rw [h] at he; simp at he
    · rw [h] at he
      injection he with he
      subst he
      exact ⟨fun h1 => absurd h1 hne, fun h1 => absurd hm h1⟩
    · rw [h] at he; simp at he
    · rw [h] at he
      injection he with he
      subst he
      exact ⟨fun _ => hm, fun _ => rfl⟩
  · intro fuel hne
    rcases key fuel with ⟨_, h⟩ | ⟨⟨e, _, _, h⟩, hm⟩ |
      ⟨ns, hs, hm, ⟨hok, hall⟩ | ⟨h, m, h1, h2, h3⟩⟩
    · exact absurd h hne
    · constructor
      · rintro ⟨ps, hps⟩
        rw [h] at hps
        simp at hps
      · rintro ⟨h1, _⟩
        exact absurd hm h1
    · refine ⟨fun _ => ⟨hm, ?_⟩, fun _ => hok⟩
      intro ns1 i hs1 h1 h2
      rw [hs] at hs1
      injection hs1 with hs1
      subst hs1
      exact hall i h1 h2
    · constructor
      · rintro ⟨ps, hps⟩
        rw [h] at hps
        simp at hps
      · rintro ⟨_, hall⟩
        exact absurd h3 (hall ns m hs h1 h2)
  · intro hall fuel hne
    rw [first fuel hne]
    constructor
    · rintro (hm | ⟨ns, i, _, _, _, h3⟩)
      · exact hm
      · exact absurd h3 (hall i)
    · exact fun hm => Or.inl hm
  · intro hend
    obtain ⟨F, hF⟩ := parseLoop_total (Split ',' rs) hend
    refine ⟨F, fun fuel hfuel hno => ?_⟩
    rcases key fuel with ⟨h1, _⟩ | ⟨⟨e, _, _, h⟩, _⟩ |
      ⟨ns, _, _, ⟨⟨ps, h⟩, _⟩ | ⟨h, _⟩⟩
    · exact hF fuel hfuel [] h1
    · rw [h] at hno; simp at hno
    · rw [h] at hno; simp at hno
    · rw [h] at hno; simp at hno
  · intro fuel it1 rnd1
    refine ⟨rfl, rfl, rfl, rfl, rfl, ?_, ?_, ?_⟩
    · exact portList_empty fuel it1 _ rnd1 rfl
    · exact portList_empty fuel it1 _ rnd1 rfl
    · exact portList_single fuel it1 _ rnd1 80 rfl

theorem Malformed_abc : Malformed "abc".toList :=
  Or.inl ⟨by decide, (not_ValidInt_iff _).2 ⟨.errSyn, rfl⟩⟩

theorem not_HasMalformed_80_81 : ¬ HasMalformed "80,81".toList := by
  rintro ⟨tok, htok, hne, hm⟩
  have hsplit : Split ',' "80,81".toList = ["80".toList, "81".toList] := by decide
  rw [hsplit] at htok
  simp only [List.mem_cons, List.mem_singleton, List.not_mem_nil, or_false] at htok
  rcases htok with rfl | rfl
  · rcases (Malformed_iff _).1 hm with ⟨_, hv⟩ | ⟨hmem, _⟩
    · exact hv ⟨80, rfl⟩
    · revert hmem; decide
  · rcases (Malformed_iff _).1 hm with ⟨_, hv⟩ | ⟨hmem, _⟩
    · exact hv ⟨81, rfl⟩
    · revert hmem; decide

/-- C3 at the specification "80,81" when the reader fails from the second draw
on: the run ends with the error of the draw, and the theorem finds the failed
draw (no token is malformed). -/
theorem C3_portList_error_witness :
    portList 1 MapIter.insertion "80,81".toList (fun i => if i = 0 then some 0 else none)
      = .err .rand ∧
    (HasMalformed "80,81".toList ∨
      ∃ ns i, portSet 1 "80,81".toList = .ok ns ∧ 1 ≤ i ∧ i < ns.length ∧
        (fun i => if i = 0 then some 0 else none : Nat → Option Nat) i = none) :=
  ⟨rfl,
   ((C3_portList_error MapIter.insertion "80,81".toList
      (fun i => if i = 0 then some 0 else none)
      (fun i j h => by
        by_cases h0 : i = 0
        · simp only [h0, if_true] at h
          injection h with h
          omega
        · simp [h0] at h)).1 1 (by decide)).1 ⟨_, rfl⟩⟩

/-- C3 as stated fails in two ways.  On "80,81", when the reader fails at the
second draw, `portList` returns an error although no token is malformed; on
"0-9223372036854775807,abc" the token "abc" is malformed, yet no run returns
an error: the range loop before it never ends. -/
theorem C3_counterexample :
    (portList 1 MapIter.insertion "80,81".toList (fun i => if i = 0 then some 0 else none)
        = .err .rand ∧
      ¬ HasMalformed "80,81".toList) ∧
    (HasMalformed "0-9223372036854775807,abc".toList ∧
      ∀ fuel (it : MapIter) (rnd : Nat → Option Nat),
        portList fuel it "0-9223372036854775807,abc".toList rnd = .noFuel) := by
  refine ⟨⟨rfl, not_HasMalformed_80_81⟩, ?_, ?_⟩
  · exact ⟨"abc".toList, by decide, by decide, Malformed_abc⟩
  · intro fuel it rnd
    have h1 : portSet fuel "0-9223372036854775807,abc".toList = .noFuel := by
      have hloop := rangeLoop_endless fuel 0 [] (by decide)
      unfold portSet
      have hsplit : Split ',' "0-9223372036854775807,abc".toList
          = ["0-9223372036854775807".toList, "abc".toList] := by decide
      rw [hsplit, parseLoop]
      have hs2 : Split '-' "0-9223372036854775807".toList
          = ["0".toList, "9223372036854775807".toList] := by decide
      have ha : Atoi "0".toList = .ok 0 := rfl
      have hb : Atoi "9223372036854775807".toList = .ok maxInt := rfl
      have hne : "0-9223372036854775807".toList ≠ [] := by decide
      have hh : ¬ ('-' ∉ "0-9223372036854775807".toList) := by decide
      have hlo : "0".toList ≠ [] := by decide
      have hhi : "9223372036854775807".toList ≠ [] := by decide
      simp only [hne, if_false, hh, hs2, hlo, ha, hhi, hb, hloop]
    unfold portList
    rw [h1]

/-! ## The sequences of draws -/

theorem mem_allDraws_succ (n : Nat) (ds : List Nat) :
    ds ∈ allDraws (n + 1) ↔ ∃ ds0 j, ds0 ∈ allDraws n ∧ j < n + 1 ∧ ds = ds0 ++ [j] := by
  simp only [allDraws, List.mem_flatMap, List.mem_map, List.mem_range]
  constructor
  · rintro ⟨ds0, h0, j, hj, rfl⟩
    exact ⟨ds0, j, h0, hj, rfl⟩
  · rintro ⟨ds0, j, h0, hj, rfl⟩
    exact ⟨ds0, h0, j, hj, rfl⟩

theorem mem_allDraws_iff (n : Nat) (ds : List Nat) :
    ds ∈ allDraws n ↔ ds.length = n ∧ ∀ i (h : i < ds.length), ds[i] ≤ i := by
  induction n generalizing ds with
  | zero =>
    simp only [allDraws, List.mem_singleton]
    constructor
    · rintro rfl
      simp
    · rintro ⟨h, _⟩
      exact List.length_eq_zero.1 h
  | succ n ih =>
    rw [mem_allDraws_succ]
    constructor
    · rintro ⟨ds0, j, h0, hj, rfl⟩
      obtain ⟨hlen, hb⟩ := (ih ds0).1 h0
      refine ⟨by simp [hlen], ?_⟩
      intro i hi
      by_cases hlt : i < ds0.length
      · rw [List.getElem_append_left hlt]
        exact hb i hlt
      · rw [List.getElem_append_right (by omega)]
        simp only [List.length_append, List.length_singleton] at hi
        have : i - ds0.length = 0 := by omega
        simp only [this, List.getElem_cons_zero]
        omega
    · rintro ⟨hlen, hb⟩
      rcases List.eq_nil_or_concat ds with rfl | ⟨ds0, j, hds⟩
      · rw [List.length_nil] at hlen
        omega
      · rw [List.concat_eq_append] at hds
        subst hds
        simp only [List.length_append, List.length_singleton] at hlen
        refine ⟨ds0, j, (ih ds0).2 ⟨by omega, ?_⟩, ?_, rfl⟩
        · intro i hi
          have := hb i (by simp; omega)
          rw [List.getElem_append_left hi] at this
          exact this
        · have := hb ds0.length (by simp)
          rw [List.getElem_append_right (le_refl _)] at this
          simp at this
          omega

theorem allDraws_nodup (n : Nat) : (allDraws n).Nodup := by
  induction n with
  | zero => simp [allDraws]
  | succ n ih =>
    simp only [allDraws]
    rw [List.nodup_flatMap]
    refine ⟨?_, ?_⟩
    · intro ds _
      refine (List.nodup_range (n + 1)).map_on ?_
      intro x _ y _ hxy
      have := List.append_inj' hxy rfl
      simpa using this.2
    · refine List.Pairwise.imp_of_mem ?_ ih
      intro a b _ _ hab
      simp only [Function.onFun, List.disjoint_left, List.mem_map, List.mem_range]
      rintro x ⟨j, _, rfl⟩ ⟨j1, _, h1⟩
      exact hab (List.append_inj' h1 rfl).1.symm

theorem length_flatMap_const {α β : Type} (l : List α) (f : α → List β) (m : Nat)
    (h : ∀ a, (f a).length = m) : (l.flatMap f).length = l.length * m := by
  induction l with
  | nil => simp
  | cons a t ih =>
    rw [List.flatMap_cons, List.length_append, ih, h a, List.length_cons]
    ring

theorem allDraws_length (n : Nat) : (allDraws n).length = n.factorial := by
  induction n with
  | zero => simp [allDraws]
  | succ n ih =>
    simp only [allDraws]
    rw [length_flatMap_const _ _ (n + 1) (fun a => by simp), ih, Nat.factorial_succ]
    ring

theorem goodDraws_of_mem (n : Nat) (ds : List Nat) (h : ds ∈ allDraws n) :
    GoodDraws (drawsOf ds) n := by
  obtain ⟨hlen, hb⟩ := (mem_allDraws_iff n ds).1 h
  intro i hi
  have hi1 : i < ds.length := by omega
  refine ⟨ds[i], hb i hi1, ?_⟩
  unfold drawsOf
  exact List.getElem?_eq_getElem hi1

/-! ## The shuffle, one iteration at the end -/

theorem shuffleLoop_succ_ok {α : Type} (rnd : Nat → Option Nat) (k i j : Nat)
    (ps ps1 ps2 : List α) (h : shuffleLoop rnd k i ps = .ok ps1)
    (hj : randInt (rnd (i + k)) (i + k + 1) = some j) (hs : swapAt ps1 (i + k) j = some ps2) :
    shuffleLoop rnd (k + 1) i ps = .ok ps2 := by
  induction k generalizing i ps with
  | zero =>
    simp only [shuffleLoop] at h
    cases h
    simp only [Nat.add_zero] at hj hs
    rw [shuffleLoop]
    simp only [hj, hs]
    rfl
  | succ k ih =>
    rw [shuffleLoop] at h
    rw [shuffleLoop]
    cases hr : randInt (rnd i) (i + 1) with
    | none => simp [hr] at h
    | some j0 =>
      simp only [hr] at h ⊢
      cases hq : swapAt ps i j0 with
      | none => simp [hq] at h
      | some q =>
        simp only [hq] at h ⊢
        have e : i + 1 + k = i + (k + 1) := by omega
        exact ih (i + 1) q h (by rw [e]; exact hj) (by rw [e]; exact hs)

/-- The iterations up to `i + k` leave the entries from `i + k` on alone. -/
theorem shuffleLoop_getElem_ge {α : Type} (rnd : Nat → Option Nat) (k i : Nat)
    (ps ps1 : List α) (h : shuffleLoop rnd k i ps = .ok ps1)
    (hg : ∀ m, i ≤ m → m < i + k → ∃ j, j ≤ m ∧ rnd m = some j)
    (m : Nat) (hm : i + k ≤ m) : ps1[m]? = ps[m]? := by
  induction k generalizing i ps with
  | zero =>
    simp only [shuffleLoop] at h
    cases h
    rfl
  | succ k ih =>
    rw [shuffleLoop] at h
    obtain ⟨j, hj, hr0⟩ := hg i (le_refl _) (by omega)
    have hr := randInt_of_good _ i j hr0 hj
    simp only [hr] at h
    cases hq : swapAt ps i j with
    | none => simp [hq] at h
    | some q =>
      simp only [hq] at h
      obtain ⟨hi1, hj1, rfl⟩ := swapAt_eq_some ps q i j hq
      rw [ih (i + 1) _ h (fun m1 h1 h2 => hg m1 (by omega) (by omega)) (by omega)]
      rw [List.getElem?_set_ne (by omega), List.getElem?_set_ne (by omega)]

theorem shuffleLoop_congr {α : Type} (rnd rnd1 : Nat → Option Nat) (k i : Nat) (ps : List α)
    (h : ∀ m, i ≤ m → m < i + k → rnd m = rnd1 m) :
    shuffleLoop rnd k i ps = shuffleLoop rnd1 k i ps := by
  induction k generalizing i ps with
  | zero => rfl
  | succ k ih =>
    rw [shuffleLoop, shuffleLoop, ← h i (le_refl _) (by omega)]
    cases randInt (rnd i) (i + 1) with
    | none => rfl
    | some j =>
      simp only
      cases swapAt ps i j with
      | none => rfl
      | some q =>
        simp only
        exact ih (i + 1) q (fun m h1 h2 => h m (by omega) (by omega))

/-- Swapping the same two entries twice gives the slice back. -/
theorem set_set_involutive {α : Type} (ps : List α) (i j : Nat) (hi : i < ps.length)
    (hj : j < ps.length) (q : List α) (hq : q = (ps.set i ps[j]).set j ps[i])
    (hi1 : i < q.length) (hj1 : j < q.length) :
    (q.set i q[j]).set j q[i] = ps := by
  subst hq
  apply List.ext_getElem
  · simp
  · intro m h1 h2
    simp only [List.getElem_set]
    split_ifs <;> simp_all

/-! ## The shuffle is a bijection -/

/-- Two runs of the first `k` iterations that end with the same slice used the
same draws. -/
theorem shuffleLoop_inj {α : Type} (l : List α) (hl : l.Nodup) (rnd rnd1 : Nat → Option Nat)
    (k : Nat) (hk : k ≤ l.length)
    (hg : ∀ m, m < k → ∃ j, j ≤ m ∧ rnd m = some j)
    (hg1 : ∀ m, m < k → ∃ j, j ≤ m ∧ rnd1 m = some j)
    (ps : List α) (h : shuffleLoop rnd k 0 l = .ok ps) (h1 : shuffleLoop rnd1 k 0 l = .ok ps) :
    ∀ m, m < k → rnd m = rnd1 m := by
  induction k generalizing ps with
  | zero => intro m hm; omega
  | succ k ih =>
    -- the two runs after `k` iterations
    obtain ⟨a, ha, hap⟩ := shuffleLoop_perm rnd k 0 l (by omega)
      (fun m _ hm => hg m (by omega))
    obtain ⟨b, hb, hbp⟩ := shuffleLoop_perm rnd1 k 0 l (by omega)
      (fun m _ hm => hg1 m (by omega))
    obtain ⟨j, hj, hrj⟩ := hg k (by omega)
    obtain ⟨j1, hj1, hrj1⟩ := hg1 k (by omega)
    have hla : a.length = l.length := hap.length_eq
    have hlb : b.length = l.length := hbp.length_eq
    have hka : k < a.length := by omega
    have hkb : k < b.length := by omega
    have hja : j < a.length := by omega
    have hjb : j1 < b.length := by omega
    -- the last iteration of each run
    have hsa := swapAt_some a k j hka hja
    have hsb := swapAt_some b k j1 hkb hjb
    have ea := shuffleLoop_succ_ok rnd k 0 j l a _ ha
      (by simpa using randInt_of_good _ k j hrj hj) (by simpa using hsa)
    have eb := shuffleLoop_succ_ok rnd1 k 0 j1 l b _ hb
      (by simpa using randInt_of_good _ k j1 hrj1 hj1) (by simpa using hsb)
    rw [h] at ea
    rw [h1] at eb
    injection ea with ea
    injection eb with eb
    -- entry `k` is still the one of `l`
    have hak : a[k] = l[k] := by
      have := shuffleLoop_getElem_ge rnd k 0 l a ha (fun m _ hm => hg m (by omega)) k (by omega)
      rw [List.getElem?_eq_getElem hka, List.getElem?_eq_getElem (by omega)] at this
      injection this
    have hbk : b[k] = l[k] := by
      have := shuffleLoop_getElem_ge rnd1 k 0 l b hb (fun m _ hm => hg1 m (by omega)) k (by omega)
      rw [List.getElem?_eq_getElem hkb, List.getElem?_eq_getElem (by omega)] at this
      injection this
    have hpsnd : ps.Nodup := by
      rw [ea]
      exact ((set_set_perm a k j hka hja).trans hap).nodup_iff.2 hl
    have hpl : ps.length = l.length := by
      rw [ea]; simp [hla]
    -- where that entry went
    have hjp : j < ps.length := by omega
    have hjp1 : j1 < ps.length := by omega
    have hpj : ps[j] = l[k] := by
      have : ps[j]? = some l[k] := by
        rw [ea, List.getElem?_set_self (by simpa using hja), hak]
      rw [List.getElem?_eq_getElem (by omega)] at this
      injection this
    have hpj1 : ps[j1] = l[k] := by
      have : ps[j1]? = some l[k] := by
        rw [eb, List.getElem?_set_self (by simpa using hjb), hbk]
      rw [List.getElem?_eq_getElem (by omega)] at this
      injection this
    have hjj : j = j1 := (hpsnd.getElem_inj_iff).1 (hpj.trans hpj1.symm)
    subst hjj
    -- undo the last swap
    have hab : a = b :=
      (set_set_involutive a k j hka hja ps ea (by omega) (by omega)).symm.trans
        (set_set_involutive b k j hkb hjb ps eb (by omega) (by omega))
    subst hab
    intro m hm
    by_cases hmk : m = k
    · subst hmk
      rw [hrj, hrj1]
    · exact ih (by omega) (fun m hm => hg m (by omega)) (fun m hm => hg1 m (by omega))
        a ha hb m (by omega)

theorem shuffle_inj {α : Type} (l : List α) (hl : l.Nodup) (ds ds1 : List Nat)
    (hd : ds ∈ allDraws l.length) (hd1 : ds1 ∈ allDraws l.length)
    (h : shuffle (drawsOf ds) l = shuffle (drawsOf ds1) l) : ds = ds1 := by
  have hg := goodDraws_of_mem _ _ hd
  have hg1 := goodDraws_of_mem _ _ hd1
  obtain ⟨ps, hps, _⟩ := shuffle_perm (drawsOf ds) l hg
  have hps1 : shuffle (drawsOf ds1) l = .ok ps := by rw [← h]; exact hps
  have key := shuffleLoop_inj l hl (drawsOf ds) (drawsOf ds1) l.length (le_refl _) hg hg1
    ps hps hps1
  obtain ⟨hlen, _⟩ := (mem_allDraws_iff _ _).1 hd
  obtain ⟨hlen1, _⟩ := (mem_allDraws_iff _ _).1 hd1
  apply List.ext_getElem?
  intro m
  by_cases hm : m < l.length
  · exact key m hm
  · rw [List.getElem?_eq_none (by omega), List.getElem?_eq_none (by omega)]

/-- The results of the shuffle over all sequences of draws are the
permutations of the slice, each once. -/
theorem shuffle_results_perm {α : Type} (l : List α) (hl : l.Nodup) :
    ((allDraws l.length).map fun ds => shuffle (drawsOf ds) l).Perm
      (l.permutations.map Res.ok) := by
  apply List.Subperm.perm_of_length_le
  · apply List.subperm_of_subset
    · exact (allDraws_nodup _).map_on (fun x hx y hy hxy => shuffle_inj l hl x y hx hy hxy)
    · intro r hr
      obtain ⟨ds, hds, rfl⟩ := List.mem_map.1 hr
      obtain ⟨ps, hps, hperm⟩ := shuffle_perm (drawsOf ds) l (goodDraws_of_mem _ _ hds)
      rw [hps]
      exact List.mem_map.2 ⟨ps, List.mem_permutations.2 hperm, rfl⟩
  · simp [allDraws_length, List.length_permutations]

theorem shuffle_surj {α : Type} (l : List α) (hl : l.Nodup) (t : List α) (ht : t.Perm l) :
    ∃ ds, ds ∈ allDraws l.length ∧ shuffle (drawsOf ds) l = .ok t := by
  have : Res.ok t ∈ (allDraws l.length).map fun ds => shuffle (drawsOf ds) l :=
    (shuffle_results_perm l hl).mem_iff.2
      (List.mem_map.2 ⟨t, List.mem_permutations.2 ht, rfl⟩)
  obtain ⟨ds, hds, h⟩ := List.mem_map.1 this
  exact ⟨ds, hds, h⟩

/-- C4: for a slice `l` of `n` distinct ports, the map from the sequences of
draws `(j_0, ..., j_{n-1})` with `j_i` in `[0, i]` to the result of the shuffle
is a bijection onto the permutations of `l`; there are `n!` such sequences,
each permutation comes from exactly one of them, and so the share of the
sequences that give a fixed permutation is `1 / n!`. -/
theorem C4_shuffle_unbiased (l : List Str) (hl : l.Nodup) :
    Set.BijOn (fun ds => shuffle (drawsOf ds) l)
      {ds | ds.length = l.length ∧ ∀ i (h : i < ds.length), ds[i] ≤ i}
      {r | ∃ t, r = Res.ok t ∧ t.Perm l} ∧
    (∀ ds, ds ∈ allDraws l.length ↔ ds.length = l.length ∧ ∀ i (h : i < ds.length), ds[i] ≤ i) ∧
    (allDraws l.length).Nodup ∧
    (allDraws l.length).length = l.length.factorial ∧
    (∀ t, t.Perm l →
      ((allDraws l.length).filter fun ds => decide (shuffle (drawsOf ds) l = Res.ok t)).length = 1 ∧
      (((allDraws l.length).filter
          fun ds => decide (shuffle (drawsOf ds) l = Res.ok t)).length : ℚ)
        / ((allDraws l.length).length : ℚ) = 1 / (l.length.factorial : ℚ)) := by
  have hmem := mem_allDraws_iff l.length
  have hone : ∀ t, t.Perm l →
      ((allDraws l.length).filter
        fun ds => decide (shuffle (drawsOf ds) l = Res.ok t)).length = 1 := by
    intro t ht
    obtain ⟨ds, hds, hsh⟩ := shuffle_surj l hl t ht
    have hnd := (allDraws_nodup l.length).filter
      (fun ds => decide (shuffle (drawsOf ds) l = Res.ok t))
    have hin : ds ∈ (allDraws l.length).filter
        (fun ds => decide (shuffle (drawsOf ds) l = Res.ok t)) := by
      rw [List.mem_filter]
      exact ⟨hds, by simpa using hsh⟩
    have hall : ∀ x, x ∈ (allDraws l.length).filter
        (fun ds => decide (shuffle (drawsOf ds) l = Res.ok t)) → x = ds := by
      intro x hx
      rw [List.mem_filter] at hx
      have hx2 : shuffle (drawsOf x) l = Res.ok t := by simpa using hx.2
      exact shuffle_inj l hl x ds hx.1 hds (hx2.trans hsh.symm)
    generalize (allDraws l.length).filter
        (fun ds => decide (shuffle (drawsOf ds) l = Res.ok t)) = L at hnd hin hall
    match L, hnd, hin, hall with
    | [x], _, _, _ => rfl
    | [], _, hin, _ => simp at hin
    | x :: y :: L1, hnd, _, hall =>
      have hx := hall x (by simp)
      have hy := hall y (by simp)
      rw [hx, hy] at hnd
      simp at hnd
  refine ⟨⟨?_, ?_, ?_⟩, hmem, allDraws_nodup _, allDraws_length _, ?_⟩
  · intro ds hds
    obtain ⟨ps, hps, hperm⟩ := shuffle_perm (drawsOf ds) l
      (goodDraws_of_mem _ _ ((hmem ds).2 hds))
    exact ⟨ps, hps, hperm⟩
  · intro x hx y hy hxy
    exact shuffle_inj l hl x y ((hmem x).2 hx) ((hmem y).2 hy) hxy
  · rintro r ⟨t, rfl, ht⟩
    obtain ⟨ds, hds, hsh⟩ := shuffle_surj l hl t ht
    exact ⟨ds, (hmem ds).1 hds, hsh⟩
  · intro t ht
    refine ⟨hone t ht, ?_⟩
    rw [hone t ht, allDraws_length]
    simp

/-- C4 at the slice of the three ports "80", "443" and "8000". -/
theorem C4_shuffle_unbiased_witness :
    Set.BijOn (fun ds => shuffle (drawsOf ds) ["80".toList, "443".toList, "8000".toList])
      {ds | ds.length = 3 ∧ ∀ i (h : i < ds.length), ds[i] ≤ i}
      {r | ∃ t, r = Res.ok t ∧ t.Perm ["80".toList, "443".toList, "8000".toList]} ∧
    (allDraws 3).length = 6 ∧
    shuffle (drawsOf [0, 0, 1]) ["80".toList, "443".toList, "8000".toList]
      = Res.ok ["443".toList, "8000".toList, "80".toList] :=
  ⟨(C4_shuffle_unbiased ["80".toList, "443".toList, "8000".toList] (by decide)).1,
   by decide, by decide⟩

/-! ## `attackOne` -/

theorem attackOne_err (a : Attempt) (buf : List Nat) :
    (attackOne a buf).2.1 = (match a.dialErr with
      | some e => some e
      | none => a.deadlineErr) := by
  unfold attackOne
  cases h1 : a.dialErr with
  | some e => rfl
  | none =>
    cases h2 : a.deadlineErr with
    | some e => rfl
    | none => rfl

theorem attackOne_err_indep (a : Attempt) (buf : List Nat) :
    (attackOne a buf).2.1 = (attackOne a []).2.1 := by
  rw [attackOne_err, attackOne_err]

/-- C8 (amended): when the dial succeeds and the read deadline is set without
error, `attackOne` returns no error together with the number of bytes of its
single read into the buffer (at most the length of the buffer), whatever error
the read returns; `attackOne` returns an error exactly when the dial fails or
the setting of the read deadline fails, the error is that failure's, and the
number of bytes is then 0. -/
theorem C8_attackOne_result (a : Attempt) (buf : List Nat) :
    (a.dialErr = none → a.deadlineErr = none →
      (attackOne a buf).2.1 = none ∧
      (attackOne a buf).1 = (connRead a buf).1 ∧
      (attackOne a buf).1 = min buf.length a.readData.length ∧
      (attackOne a buf).2.2.take (attackOne a buf).1 = a.readData.take buf.length ∧
      ∀ e, attackOne { a with readErr := e } buf = attackOne a buf) ∧
    (∀ e, (attackOne a buf).2.1 = some e ↔
      (a.dialErr = some e ∨ (a.dialErr = none ∧ a.deadlineErr = some e))) ∧
    (∀ e, (attackOne a buf).2.1 = some e → (attackOne a buf).1 = 0) := by
  refine ⟨?_, ?_, ?_⟩
  · intro h1 h2
    unfold attackOne connRead
    simp only [h1, h2]
    refine ⟨trivial, trivial, ?_, ?_, fun _ => trivial⟩
    · simp [List.length_take]
    · simp
  · intro e
    rw [attackOne_err]
    cases h1 : a.dialErr with
    | some e1 => simp
    | none => simp
  · intro e h
    unfold attackOne at h ⊢
    cases h1 : a.dialErr with
    | some e1 => rfl
    | none =>
      cases h2 : a.deadlineErr with
      | some e1 => rfl
      | none => simp [h1, h2] at h

/-- C8 at an attempt whose dial succeeds and whose read delivers three bytes
together with the error "EOF", into a buffer of two bytes. -/
theorem C8_attackOne_result_witness :
    attackOne ⟨none, none, [72, 73, 74], some "EOF".toList⟩ [0, 0] = (2, none, [72, 73]) ∧
    (attackOne ⟨none, none, [72, 73, 74], some "EOF".toList⟩ [0, 0]).1
      = min ([0, 0] : List Nat).length ([72, 73, 74] : List Nat).length :=
  ⟨by decide,
   ((C8_attackOne_result ⟨none, none, [72, 73, 74], some "EOF".toList⟩ [0, 0]).1 rfl rfl).2.2.1⟩

/-- C8 as stated fails: the dial succeeds, the setting of the read deadline
fails, and `attackOne` returns that error with 0 bytes. -/
theorem C8_counterexample :
    (⟨none, some "use of closed network connection".toList, [72], none⟩ : Attempt).dialErr = none ∧
    attackOne ⟨none, some "use of closed network connection".toList, [72], none⟩ [0, 0]
      = (0, some "use of closed network connection".toList, [0, 0]) := by
  decide

/-! ## `strings.HasSuffix` -/

theorem HasSuffix_iff (s suf : Str) : HasSuffix s suf = true ↔ suf <:+ s := by
  unfold HasSuffix
  simp only [Bool.and_eq_true, decide_eq_true_eq]
  constructor
  · rintro ⟨_, h2⟩
    rw [← h2]
    exact List.drop_suffix _ _
  · rintro ⟨t, rfl⟩
    refine ⟨by simp, ?_⟩
    simp

/-- Two suffixes of one text: the shorter is a suffix of the longer. -/
theorem HasSuffix_both (e s1 s2 : Str) (h1 : HasSuffix e s1 = true) (h2 : HasSuffix e s2 = true)
    (hlen : s1.length ≤ s2.length) : HasSuffix s2 s1 = true := by
  rw [HasSuffix_iff] at h1 h2 ⊢
  exact List.suffix_of_suffix_length_le h1 h2 hlen

theorem not_noRoute_of_timeout (e : Str) (h : HasSuffix e timeoutMsg = true) :
    HasSuffix e noRouteMsg = false := by
  cases h2 : HasSuffix e noRouteMsg with
  | false => rfl
  | true =>
    have := HasSuffix_both e timeoutMsg noRouteMsg h h2 (by decide)
    revert this
    decide

theorem not_noRoute_of_refused (e : Str) (h : HasSuffix e refusedMsg = true) :
    HasSuffix e noRouteMsg = false := by
  cases h2 : HasSuffix e noRouteMsg with
  | false => rfl
  | true =>
    have := HasSuffix_both e refusedMsg noRouteMsg h h2 (by decide)
    revert this
    decide

theorem not_timeout_of_noRouteToHost (e : Str)
    (h : HasSuffix e "no route to host".toList = true) : HasSuffix e timeoutMsg = false := by
  cases h2 : HasSuffix e timeoutMsg with
  | false => rfl
  | true =>
    have := HasSuffix_both e timeoutMsg "no route to host".toList h2 h (by decide)
    revert this
    decide

theorem not_refused_of_noRouteToHost (e : Str)
    (h : HasSuffix e "no route to host".toList = true) : HasSuffix e refusedMsg = false := by
  cases h2 : HasSuffix e refusedMsg with
  | false => rfl
  | true =>
    have := HasSuffix_both e "no route to host".toList refusedMsg h h2 (by decide)
    revert this
    decide

/-! ## One attempt of the worker -/

theorem tryPort_retry (env : Env) (fl : Flags) (t : Str) (fuel : Nat) (s : WState)
    (n : Nat) (e : Str) (buf1 : List Nat) (d : Nat)
    (ha : attackOne (env.net s.calls) s.buf = (n, some e, buf1))
    (hr : (fl.retry && HasSuffix e noRouteMsg) = true) (hd : env.rnd s.draws = some d) :
    tryPort env fl t (fuel + 1) s = tryPort env fl t fuel
      { calls := s.calls + 1, draws := s.draws + 1, nSuc := s.nSuc, buf := buf1,
        trace := s.trace ++ [Event.attempt t] ++ [Event.sleep d] } := by
  rw [tryPort]
  simp only [ha, hr, if_true, hd]

theorem tryPort_fatal (env : Env) (fl : Flags) (t : Str) (fuel : Nat) (s : WState)
    (n : Nat) (e : Str) (buf1 : List Nat)
    (ha : attackOne (env.net s.calls) s.buf = (n, some e, buf1))
    (hr : (fl.retry && HasSuffix e noRouteMsg) = true) (hd : env.rnd s.draws = none) :
    tryPort env fl t (fuel + 1) s = .fatal
      { calls := s.calls + 1, draws := s.draws, nSuc := s.nSuc, buf := buf1,
        trace := s.trace ++ [Event.attempt t] } := by
  rw [tryPort]
  simp only [ha, hr, if_true, hd]

theorem tryPort_fail (env : Env) (fl : Flags) (t : Str) (fuel : Nat) (s : WState)
    (n : Nat) (e : Str) (buf1 : List Nat)
    (ha : attackOne (env.net s.calls) s.buf = (n, some e, buf1))
    (hr : (fl.retry && HasSuffix e noRouteMsg) = false)
    (hf : (HasSuffix e timeoutMsg || HasSuffix e refusedMsg) = true) :
    tryPort env fl t (fuel + 1) s = .ok
      { calls := s.calls + 1, draws := s.draws, nSuc := s.nSuc, buf := buf1,
        trace := s.trace ++ [Event.attempt t] ++
          ((if fl.fails then [Event.logFAIL t e] else []) ++
            [Event.done t (if HasSuffix e timeoutMsg then Outcome.TimedOut
              else Outcome.Refused)]) } := by
  rw [tryPort]
  simp only [ha, hr, hf, if_true]
  cases fl.fails <;> simp

theorem tryPort_error (env : Env) (fl : Flags) (t : Str) (fuel : Nat) (s : WState)
    (n : Nat) (e : Str) (buf1 : List Nat)
    (ha : attackOne (env.net s.calls) s.buf = (n, some e, buf1))
    (hr : (fl.retry && HasSuffix e noRouteMsg) = false)
    (hf : (HasSuffix e timeoutMsg || HasSuffix e refusedMsg) = false) :
    tryPort env fl t (fuel + 1) s = .ok
      { calls := s.calls + 1, draws := s.draws, nSuc := s.nSuc, buf := buf1,
        trace := s.trace ++ [Event.attempt t] ++
          [Event.logERROR t e, Event.done t (Outcome.OtherError e)] } := by
  rw [tryPort]
  simp only [ha, hr, hf]
  simp

theorem tryPort_success (env : Env) (fl : Flags) (t : Str) (fuel : Nat) (s : WState)
    (n : Nat) (buf1 : List Nat)
    (ha : attackOne (env.net s.calls) s.buf = (n, none, buf1)) :
    tryPort env fl t (fuel + 1) s = .ok
      { calls := s.calls + 1, draws := s.draws, nSuc := (s.nSuc + 1) % 2 ^ 64, buf := buf1,
        trace := s.trace ++ [Event.attempt t] ++
          [Event.logSUCCESS t (buf1.take n), Event.done t (Outcome.Success n)] } := by
  rw [tryPort]
  simp only [ha, slog]
  simp

/-! ## Timeouts, refusals and unreachable hosts -/

/-- An attempt that fails with a message ending in one of the two suffixes the
code tests ends the port. -/
theorem tryPort_timeout_refused (env : Env) (fl : Flags) (t : Str) (fuel : Nat)
    (s : WState) (e : Str)
    (herr : (attackOne (env.net s.calls) s.buf).2.1 = some e)
    (hsuf : HasSuffix e timeoutMsg = true ∨ HasSuffix e refusedMsg = true) :
    ∃ s1 new, tryPort env fl t (fuel + 1) s = .ok s1 ∧
      s1.calls = s.calls + 1 ∧ s1.draws = s.draws ∧ s1.nSuc = s.nSuc ∧
      s1.trace = s.trace ++ new ∧
      new = [Event.attempt t] ++ ((if fl.fails then [Event.logFAIL t e] else []) ++
        [Event.done t (if HasSuffix e "i/o timeout".toList then Outcome.TimedOut
          else Outcome.Refused)]) ∧
      (Event.logFAIL t e ∈ new ↔ fl.fails = true) ∧
      (∀ t1 e1, Event.logERROR t1 e1 ∉ new) ∧
      (∀ d, Event.sleep d ∉ new) ∧
      attemptsOf new = [t] := by
  have hnr : HasSuffix e noRouteMsg = false := by
    rcases hsuf with h | h
    · exact not_noRoute_of_timeout e h
    · exact not_noRoute_of_refused e h
  have hf : (HasSuffix e timeoutMsg || HasSuffix e refusedMsg) = true := by
    rcases hsuf with h | h
    · simp [h]
    · simp [h]
  rcases hres : attackOne (env.net s.calls) s.buf with ⟨n, err, buf1⟩
  rw [hres] at herr
  simp only at herr
  subst herr
  refine ⟨_, _, tryPort_fail env fl t fuel s n e buf1 hres (by simp [hnr]) hf,
    rfl, rfl, rfl, by simp only [List.append_assoc]; rfl, rfl, ?_, ?_, ?_, ?_⟩
  · cases fl.fails <;> simp
  · intro t1 e1
    cases fl.fails <;> simp
  · intro d
    cases fl.fails <;> simp
  · cases fl.fails <;> simp [attemptsOf]

/-! ## The texts of the errors of package `net` -/

theorem toDigitsCore_digits (fuel n : Nat) (ds : Str) :
    ∀ c, c ∈ Nat.toDigitsCore 10 fuel n ds → c.isDigit = true ∨ c ∈ ds := by
  induction fuel generalizing n ds with
  | zero =>
    intro c hc
    exact Or.inr (by simpa [Nat.toDigitsCore] using hc)
  | succ k ih =>
    intro c hc
    have hd : (Nat.digitChar (n % 10)).isDigit = true := by
      have : ∀ m, m < 10 → (Nat.digitChar m).isDigit = true := by decide
      exact this _ (Nat.mod_lt _ (by decide))
    by_cases h0 : n / 10 = 0
    · simp only [Nat.toDigitsCore, h0, if_true, List.mem_cons] at hc
      rcases hc with rfl | hc
      · exact Or.inl hd
      · exact Or.inr hc
    · simp only [Nat.toDigitsCore, h0, if_false] at hc
      rcases ih _ _ c hc with h | h
      · exact Or.inl h
      · rcases List.mem_cons.1 h with rfl | h
        · exact Or.inl hd
        · exact Or.inr h

theorem toDigits_ne_nil (n : Nat) : Nat.toDigits 10 n ≠ [] := by
  unfold Nat.toDigits
  by_cases h0 : n / 10 = 0
  · simp [Nat.toDigitsCore, h0]
  · simp only [Nat.toDigitsCore, h0, if_false]
    intro h
    have hmem : Nat.digitChar (n % 10) ∈ Nat.toDigitsCore 10 n (n / 10) [Nat.digitChar (n % 10)] := by
      have hsuf : ∀ (f m : Nat) (ds : Str), ds <:+ Nat.toDigitsCore 10 f m ds := by
        intro f
        induction f with
        | zero => intro m ds; simp [Nat.toDigitsCore]
        | succ k ih =>
          intro m ds
          by_cases h1 : m / 10 = 0
          · simp only [Nat.toDigitsCore, h1, if_true]
            exact List.suffix_cons _ _
          · simp only [Nat.toDigitsCore, h1, if_false]
            exact (List.suffix_cons _ _).trans (ih _ _)
      exact (hsuf n (n / 10) _).subset (by simp)
    rw [h] at hmem
    simp at hmem

/-- A text without a colon that ends a text with a colon in it ends the part
after the colon. -/
theorem suffix_past_colon (p X rest : Str) (hp : ':' ∉ p) (h : p <:+ X ++ ':' :: rest) :
    p <:+ rest := by
  have h2 : (':' :: rest) <:+ X ++ ':' :: rest := List.suffix_append _ _
  have h3 : rest <:+ X ++ ':' :: rest := (List.suffix_cons _ _).trans h2
  by_cases hl : p.length ≤ rest.length
  · exact List.suffix_of_suffix_length_le h h3 hl
  · have := List.suffix_of_suffix_length_le h2 h (by simp only [List.length_cons]; omega)
    exact absurd (this.subset (List.mem_cons_self _ _)) hp

theorem layered_split (ws : List Str) (t : Str) (w : Str) :
    ∃ X, w ++ ':' :: ' ' :: layered ws t = X ++ ':' :: ' ' :: t := by
  induction ws generalizing w with
  | nil => exact ⟨w, rfl⟩
  | cons v vs ih =>
    obtain ⟨X, hX⟩ := ih v
    refine ⟨w ++ ':' :: ' ' :: X, ?_⟩
    simp only [layered, hX, List.append_assoc, List.cons_append]

theorem NetError_split (e : NetError) :
    ∃ X, e.Error = X ++ ':' :: ' ' :: e.cause.text :=
  layered_split e.layers e.cause.text e.head

/-- The only cause whose text ends in "connection refused" is the one with
that text. -/
theorem cause_refused (c : Cause) (h : "connection refused".toList <:+ c.text) :
    c = Cause.ECONNREFUSED := by
  cases c with
  | errno n =>
    exfalso
    obtain ⟨pre, hpre⟩ := h
    have hlast := congrArg List.getLast? hpre
    simp only [Cause.text] at hlast
    rw [List.getLast?_append, List.getLast?_append] at hlast
    have h1 : "connection refused".toList.getLast? = some 'd' := by decide
    rw [h1] at hlast
    cases hd : (Nat.toDigits 10 n).getLast? with
    | none =>
      rw [List.getLast?_eq_none_iff] at hd
      exact toDigits_ne_nil n hd
    | some c =>
      rw [hd] at hlast
      simp only [Option.or] at hlast
      injection hlast with hlast
      have hmem := List.mem_of_getLast?_eq_some hd
      rcases toDigitsCore_digits _ _ _ c hmem with h2 | h2
      · rw [← hlast] at h2
        revert h2
        decide
      · simp at h2
  | ECONNREFUSED => rfl
  | _ =>
    exfalso
    have := (HasSuffix_iff _ _).2 h
    revert this
    decide

/-- An error of package `net` whose message ends in "connection refused" ends
in ": connection refused", with the colon and the blank. -/
theorem NetError_refused (e : NetError)
    (h : HasSuffix e.Error "connection refused".toList = true) :
    HasSuffix e.Error refusedMsg = true := by
  obtain ⟨X, hX⟩ := NetError_split e
  rw [HasSuffix_iff] at h ⊢
  rw [hX] at h ⊢
  have h1 : "connection refused".toList <:+ ' ' :: e.cause.text :=
    suffix_past_colon _ X _ (by decide) h
  have h2 : "connection refused".toList <:+ e.cause.text := by
    rcases List.suffix_cons_iff.1 h1 with h3 | h3
    · exfalso
      have := congrArg List.head? h3
      revert this
      simp only [List.head?_cons]
      decide
    · exact h3
  have hc := cause_refused e.cause h2
  rw [hc]
  exact ⟨X, rfl⟩

/-- C6: a failed attempt whose error message ends with "i/o timeout", or whose
error is an error of package `net` (as `net.DialTimeout` and
`c.SetReadDeadline` return it) with a message that ends with "connection
refused", ends the port with the outcome TimedOut or Refused, whatever the
retry option is: the worker makes no further attempt and does not sleep, the
counter is unchanged, it logs a FAIL line exactly when the verbose-failures
option is set, and it logs no ERROR line. -/
theorem C6_timeout_refused_terminal (env : Env) (fl : Flags) (t : Str) (fuel : Nat)
    (s : WState) (e : Str)
    (herr : (attackOne (env.net s.calls) s.buf).2.1 = some e)
    (hsuf : HasSuffix e "i/o timeout".toList = true ∨
      ∃ ne : NetError, e = ne.Error ∧ HasSuffix e "connection refused".toList = true) :
    ∃ s1 new, tryPort env fl t (fuel + 1) s = .ok s1 ∧
      s1.calls = s.calls + 1 ∧ s1.draws = s.draws ∧ s1.nSuc = s.nSuc ∧
      s1.trace = s.trace ++ new ∧
      new = [Event.attempt t] ++ ((if fl.fails then [Event.logFAIL t e] else []) ++
        [Event.done t (if HasSuffix e "i/o timeout".toList then Outcome.TimedOut
          else Outcome.Refused)]) ∧
      (Event.logFAIL t e ∈ new ↔ fl.fails = true) ∧
      (∀ t1 e1, Event.logERROR t1 e1 ∉ new) ∧
      (∀ d, Event.sleep d ∉ new) ∧
      attemptsOf new = [t] := by
  apply tryPort_timeout_refused env fl t fuel s e herr
  rcases hsuf with h | ⟨ne, rfl, h⟩
  · exact Or.inl h
  · exact Or.inr (NetError_refused ne h)

/-- C6 at a refused connection with the verbose-failures option set and retries
on. -/
theorem C6_timeout_refused_terminal_witness :
    ∃ s1 new,
      tryPort ⟨fun _ => ⟨some "dial tcp 10.0.0.1:81: connect: connection refused".toList,
          none, [], none⟩, fun _ => some 0⟩ ⟨true, true⟩ "10.0.0.1:81".toList 1 ⟨0, 0, 0, [0], []⟩
        = .ok s1 ∧
      s1.calls = 0 + 1 ∧ s1.draws = 0 ∧ s1.nSuc = 0 ∧ s1.trace = [] ++ new ∧
      new = [Event.attempt "10.0.0.1:81".toList] ++
        ((if true then [Event.logFAIL "10.0.0.1:81".toList
            "dial tcp 10.0.0.1:81: connect: connection refused".toList] else []) ++
        [Event.done "10.0.0.1:81".toList
          (if HasSuffix "dial tcp 10.0.0.1:81: connect: connection refused".toList
              "i/o timeout".toList then Outcome.TimedOut else Outcome.Refused)]) ∧
      (Event.logFAIL "10.0.0.1:81".toList
          "dial tcp 10.0.0.1:81: connect: connection refused".toList ∈ new ↔ true = true) ∧
      (∀ t1 e1, Event.logERROR t1 e1 ∉ new) ∧
      (∀ d, Event.sleep d ∉ new) ∧
      attemptsOf new = ["10.0.0.1:81".toList] :=
  C6_timeout_refused_terminal
    ⟨fun _ => ⟨some "dial tcp 10.0.0.1:81: connect: connection refused".toList,
      none, [], none⟩, fun _ => some 0⟩ ⟨true, true⟩ "10.0.0.1:81".toList 0 ⟨0, 0, 0, [0], []⟩
    "dial tcp 10.0.0.1:81: connect: connection refused".toList rfl
    (Or.inr ⟨⟨"dial tcp 10.0.0.1:81".toList, ["connect".toList], Cause.ECONNREFUSED⟩,
      by decide, by decide⟩)

/-- C7: with retries off, an attempt that fails with a message ending in "no
route to host" ends the port: the worker makes no further attempt and does not
sleep, and whatever the verbose-failures option is it logs an ERROR line with
the target and the error; the outcome is OtherError. -/
theorem C7_no_retry_no_route (env : Env) (fl : Flags) (t : Str) (fuel : Nat)
    (s : WState) (e : Str) (hretry : fl.retry = false)
    (herr : (attackOne (env.net s.calls) s.buf).2.1 = some e)
    (hsuf : HasSuffix e "no route to host".toList = true) :
    ∃ s1, tryPort env fl t (fuel + 1) s = .ok s1 ∧
      s1.calls = s.calls + 1 ∧ s1.draws = s.draws ∧ s1.nSuc = s.nSuc ∧
      s1.trace = s.trace ++
        [Event.attempt t, Event.logERROR t e, Event.done t (Outcome.OtherError e)] ∧
      sleepsOf s1.trace = sleepsOf s.trace ∧
      attemptsOf s1.trace = attemptsOf s.trace ++ [t] := by
  have h1 := not_timeout_of_noRouteToHost e hsuf
  have h2 := not_refused_of_noRouteToHost e hsuf
  rcases hres : attackOne (env.net s.calls) s.buf with ⟨n, err, buf1⟩
  rw [hres] at herr
  simp only at herr
  subst herr
  have appA : ∀ (a b : List Event), attemptsOf (a ++ b) = attemptsOf a ++ attemptsOf b := by
    intro a b
    induction a with
    | nil => rfl
    | cons x xs ih => cases x <;> simp [attemptsOf, ih]
  refine ⟨_, tryPort_error env fl t fuel s n e buf1 hres (by simp [hretry])
    (by simp [h1, h2]), rfl, rfl, rfl, by simp, ?_, ?_⟩
  · simp [sleepsOf, List.countP_append, List.countP_cons, Event.isSleep]
  · simp [appA, attemptsOf]

/-- C7 at a host without a route, with the verbose-failures option off. -/
theorem C7_no_retry_no_route_witness :
    ∃ s1,
      tryPort ⟨fun _ => ⟨some "dial tcp 10.0.0.1:81: connect: no route to host".toList,
          none, [], none⟩, fun _ => some 0⟩ ⟨false, false⟩ "10.0.0.1:81".toList 1
          ⟨0, 0, 0, [0], []⟩ = .ok s1 ∧
      s1.calls = 0 + 1 ∧ s1.draws = 0 ∧ s1.nSuc = 0 ∧
      s1.trace = [] ++
        [Event.attempt "10.0.0.1:81".toList,
         Event.logERROR "10.0.0.1:81".toList
           "dial tcp 10.0.0.1:81: connect: no route to host".toList,
         Event.done "10.0.0.1:81".toList
           (Outcome.OtherError "dial tcp 10.0.0.1:81: connect: no route to host".toList)] ∧
      sleepsOf s1.trace = sleepsOf [] ∧
      attemptsOf s1.trace = attemptsOf [] ++ ["10.0.0.1:81".toList] :=
  C7_no_retry_no_route
    ⟨fun _ => ⟨some "dial tcp 10.0.0.1:81: connect: no route to host".toList,
      none, [], none⟩, fun _ => some 0⟩ ⟨false, false⟩ "10.0.0.1:81".toList 0
    ⟨0, 0, 0, [0], []⟩ "dial tcp 10.0.0.1:81: connect: no route to host".toList rfl rfl
    (by decide)

/-! ## The worker loop -/

theorem attemptsOf_append (a b : List Event) :
    attemptsOf (a ++ b) = attemptsOf a ++ attemptsOf b := by
  induction a with
  | nil => rfl
  | cons x xs ih => cases x <;> simp [attemptsOf, ih]

theorem doneOf_append (a b : List Event) : doneOf (a ++ b) = doneOf a ++ doneOf b := by
  induction a with
  | nil => rfl
  | cons x xs ih => cases x <;> simp [doneOf, ih]

theorem Retryable_iff (fl : Flags) (a : Attempt) (buf : List Nat) :
    Retryable fl a = true ↔
      ∃ e, (attackOne a buf).2.1 = some e ∧ (fl.retry && HasSuffix e noRouteMsg) = true := by
  unfold Retryable
  rw [attackOne_err_indep a buf]
  cases (attackOne a []).2.1 with
  | none => simp
  | some e => simp

theorem attackOne_err_buf (a : Attempt) (buf : List Nat) (n : Nat) (e : Str) (buf1 : List Nat)
    (h : attackOne a buf = (n, some e, buf1)) : buf1 = buf := by
  unfold attackOne at h
  cases h1 : a.dialErr with
  | some e1 =>
    simp only [h1] at h
    injection h with _ h
    injection h with _ h
    exact h.symm
  | none =>
    cases h2 : a.deadlineErr with
    | some e1 =>
      simp only [h1, h2] at h
      injection h with _ h
      injection h with _ h
      exact h.symm
    | none =>
      simp only [h1, h2] at h
      injection h with _ h
      injection h with h _
      cases h

/-- The result of the attempt that ends a port decides the run of `tryPort`. -/
theorem tryPort_terminal (env : Env) (fl : Flags) (t : Str) (s : WState)
    (h : Retryable fl (env.net s.calls) = false) :
    ∃ s1 new, (∀ fuel, tryPort env fl t (fuel + 1) s = .ok s1) ∧
      s1.calls = s.calls + 1 ∧ s1.draws = s.draws ∧
      s1.trace = s.trace ++ [Event.attempt t] ++ new ++
        [Event.done t (classify (attackOne (env.net s.calls) s.buf).1
          (attackOne (env.net s.calls) s.buf).2.1)] ∧
      attemptsOf new = [] ∧ doneOf new = [] ∧ sleepsOf new = 0 := by
  rcases hres : attackOne (env.net s.calls) s.buf with ⟨n, err, buf1⟩
  cases err with
  | none =>
    exact ⟨_, [Event.logSUCCESS t (buf1.take n)],
      fun fuel => tryPort_success env fl t fuel s n buf1 hres,
      rfl, rfl, by simp [classify], rfl, rfl, rfl⟩
  | some e =>
    have hr : (fl.retry && HasSuffix e noRouteMsg) = false := by
      cases hb : (fl.retry && HasSuffix e noRouteMsg) with
      | false => rfl
      | true =>
        have := (Retryable_iff fl (env.net s.calls) s.buf).2 ⟨e, by rw [hres], hb⟩
        rw [h] at this
        cases this
    cases hf : (HasSuffix e timeoutMsg || HasSuffix e refusedMsg) with
    | true =>
      refine ⟨_, (if fl.fails then [Event.logFAIL t e] else []),
        fun fuel => tryPort_fail env fl t fuel s n e buf1 hres hr hf, rfl, rfl, ?_, ?_, ?_, ?_⟩
      · simp only [classify, List.append_assoc]
        cases h1 : HasSuffix e timeoutMsg with
        | true => simp
        | false =>
          have h2 : HasSuffix e refusedMsg = true := by simpa [h1] using hf
          simp [h2]
      · cases fl.fails <;> simp [attemptsOf]
      · cases fl.fails <;> simp [doneOf]
      · cases fl.fails <;> simp [sleepsOf, Event.isSleep]
    | false =>
      refine ⟨_, [Event.logERROR t e],
        fun fuel => tryPort_error env fl t fuel s n e buf1 hres hr hf,
        rfl, rfl, ?_, rfl, rfl, rfl⟩
      have h1 : HasSuffix e timeoutMsg = false := by
        cases h1 : HasSuffix e timeoutMsg <;> simp_all
      have h2 : HasSuffix e refusedMsg = false := by
        cases h2 : HasSuffix e refusedMsg <;> simp_all
      simp [classify, h1, h2]

/-- The run of `tryPort` on a port whose first `m` attempts are retried and
whose next attempt is not. -/
theorem tryPort_run (env : Env) (fl : Flags) (t : Str) (m : Nat) (s : WState)
    (hre : ∀ k, k < m → Retryable fl (env.net (s.calls + k)) = true)
    (hterm : Retryable fl (env.net (s.calls + m)) = false)
    (hdraws : ∀ k, ∃ d, env.rnd k = some d) :
    ∃ s1, (∀ fuel, m < fuel → tryPort env fl t fuel s = .ok s1) ∧
      s1.calls = s.calls + m + 1 ∧ s1.draws = s.draws + m ∧
      attemptsOf s1.trace = attemptsOf s.trace ++ List.replicate (m + 1) t ∧
      sleepsOf s1.trace = sleepsOf s.trace + m ∧
      doneOf s1.trace = doneOf s.trace ++
        [(t, classify (attackOne (env.net (s.calls + m)) s.buf).1
          (attackOne (env.net (s.calls + m)) s.buf).2.1)] ∧
      s1.trace.getLast? = some (Event.done t
        (classify (attackOne (env.net (s.calls + m)) s.buf).1
          (attackOne (env.net (s.calls + m)) s.buf).2.1)) := by
  induction m generalizing s with
  | zero =>
    obtain ⟨s1, new, h1, h2, h3, h4, h5, h6, h7⟩ := tryPort_terminal env fl t s hterm
    have hall : ∀ fuel, 0 < fuel → tryPort env fl t fuel s = .ok s1 := by
      intro fuel hf
      obtain ⟨f, rfl⟩ : ∃ f, fuel = f + 1 := ⟨fuel - 1, by omega⟩
      exact h1 f
    refine ⟨s1, hall, by simpa using h2, by simpa using h3, ?_, ?_, ?_, ?_⟩
    · rw [h4]
      simp [attemptsOf_append, attemptsOf, h5]
    · rw [h4]
      simp only [sleepsOf] at h7 ⊢
      simp [List.countP_append, List.countP_cons, Event.isSleep, h7]
    · rw [h4]
      simp [doneOf_append, doneOf, h6]
    · rw [h4, List.getLast?_append]
      simp
  | succ m ih =>
    obtain ⟨e, he, hb⟩ := (Retryable_iff fl (env.net s.calls) s.buf).1 (hre 0 (by omega))
    rcases hres : attackOne (env.net s.calls) s.buf with ⟨n, err, buf1⟩
    rw [hres] at he
    simp only at he
    subst he
    have hbuf := attackOne_err_buf _ _ _ _ _ hres
    subst hbuf
    obtain ⟨d, hd⟩ := hdraws s.draws
    have hstep := fun fuel => tryPort_retry env fl t fuel s n e s.buf d hres hb hd
    obtain ⟨s1, g1, g2, g3, g4, g5, g6, g7⟩ := ih
      { calls := s.calls + 1, draws := s.draws + 1, nSuc := s.nSuc, buf := s.buf,
        trace := s.trace ++ [Event.attempt t] ++ [Event.sleep d] }
      (fun k hk => by
        have := hre (k + 1) (by omega)
        simpa [Nat.add_assoc, Nat.add_comm 1 k] using this)
      (by simpa [Nat.add_assoc, Nat.add_comm 1 m] using hterm)
    have e1 : s.calls + 1 + m = s.calls + (m + 1) := by omega
    simp only [e1] at g6 g7
    refine ⟨s1, ?_, by simp at g2; omega, by simp at g3; omega, ?_, ?_, ?_, g7⟩
    · intro fuel hf
      obtain ⟨f, rfl⟩ : ∃ f, fuel = f + 1 := ⟨fuel - 1, by omega⟩
      rw [hstep f]
      exact g1 f (by omega)
    · rw [g4]
      simp [attemptsOf_append, attemptsOf, List.replicate_succ]
    · rw [g5]
      simp only [sleepsOf]
      simp [List.countP_append, List.countP_cons, Event.isSleep]
      omega
    · rw [g6]
      simp [doneOf_append, doneOf]

theorem noRoute_suffix (e : Str) (h : HasSuffix e noRouteMsg = true) :
    HasSuffix e "no route to host".toList = true := by
  rw [HasSuffix_iff] at h ⊢
  exact List.IsSuffix.trans ((HasSuffix_iff _ _).1 (by decide)) h

/-- The first attempt from call `c` on that is not retried. -/
theorem first_terminal (env : Env) (fl : Flags) (c : Nat)
    (hfair : ∀ k, ∃ m, Retryable fl (env.net (k + m)) = false) :
    ∃ m, (∀ k, k < m → Retryable fl (env.net (c + k)) = true) ∧
      Retryable fl (env.net (c + m)) = false := by
  classical
  have hex := hfair c
  refine ⟨Nat.find hex, ?_, Nat.find_spec hex⟩
  intro k hk
  have := Nat.find_min hex hk
  cases hb : Retryable fl (env.net (c + k)) with
  | true => rfl
  | false => exact absurd hb this

theorem attacker_cons_ok (env : Env) (fl : Flags) (target : Str) (fuel : Nat) (port : Str)
    (rest : List Str) (s s1 : WState)
    (h : tryPort env fl (JoinHostPort target port) fuel s = .ok s1) :
    attacker env fl target fuel (port :: rest) s = attacker env fl target fuel rest s1 := by
  rw [attacker]
  simp only [h]

/-- The run of the worker over a list of ports, when every port meets an
attempt that is not retried and the draws of the sleeps succeed. -/
theorem attacker_run (env : Env) (fl : Flags) (target : Str) (ports : List Str) (s : WState)
    (hfair : ∀ k, ∃ m, Retryable fl (env.net (k + m)) = false)
    (hdraws : ∀ k, ∃ d, env.rnd k = some d) :
    ∃ F s1, (∀ fuel, F ≤ fuel → attacker env fl target fuel ports s = .ok s1) ∧
      (doneOf s1.trace).map Prod.fst
        = (doneOf s.trace).map Prod.fst ++ ports.map (JoinHostPort target) ∧
      (attemptsOf s1.trace).length = (attemptsOf s.trace).length + (s1.calls - s.calls) ∧
      s1.calls = s.calls + ports.length + (s1.draws - s.draws) ∧
      sleepsOf s1.trace = sleepsOf s.trace + (s1.draws - s.draws) ∧
      s.draws ≤ s1.draws ∧ s.calls ≤ s1.calls := by
  induction ports generalizing s with
  | nil =>
    refine ⟨0, s, fun fuel _ => rfl, by simp, by simp, by simp, by simp, le_refl _, le_refl _⟩
  | cons port rest ih =>
    obtain ⟨m, hre, hterm⟩ := first_terminal env fl s.calls hfair
    obtain ⟨s1, h1, h2, h3, h4, h5, h6, _⟩ :=
      tryPort_run env fl (JoinHostPort target port) m s hre hterm hdraws
    obtain ⟨F, s2, g1, g2, g3, g4, g5, g6, g7⟩ := ih s1
    refine ⟨max (m + 1) F, s2, ?_, ?_, ?_, ?_, ?_, ?_, ?_⟩
    · intro fuel hf
      rw [attacker_cons_ok env fl target fuel port rest s s1
        (h1 fuel (by have := le_max_left (m + 1) F; omega))]
      exact g1 fuel (by have := le_max_right (m + 1) F; omega)
    · rw [g2, h6]
      simp
    · rw [g3, h4]
      simp
      omega
    · simp only [List.length_cons]
      omega
    · omega
    · omega
    · omega

/-- C5 (amended): when the draws of the sleeps succeed and a result that is not
retried eventually occurs after every call, the worker makes, for each port,
as many attempts as there are retried results before the first result that is
not retried, plus one (a result is retried only when retries are on and it is
a failure whose message ends in "no route to host", with "connect: " before
it); it sleeps once after each retried attempt; it then produces exactly one terminal outcome for the port,
the classification of that last result (Success, Refused, TimedOut or
OtherError), and moves on.  A worker that receives `N` ports so produces
exactly `N` terminal outcomes, one for each port in order. -/
theorem C5_one_outcome_per_port (env : Env) (fl : Flags) (target : Str)
    (hfair : ∀ k, ∃ m, Retryable fl (env.net (k + m)) = false)
    (hdraws : ∀ k, ∃ d, env.rnd k = some d) :
    (∀ a, Retryable fl a = true →
      fl.retry = true ∧ ∃ e, (attackOne a []).2.1 = some e ∧
        HasSuffix e "no route to host".toList = true) ∧
    (∀ (port : Str) (s : WState), ∃ m s1,
      (∀ k, k < m → Retryable fl (env.net (s.calls + k)) = true) ∧
      Retryable fl (env.net (s.calls + m)) = false ∧
      (∀ fuel, m < fuel → attacker env fl target fuel [port] s = .ok s1) ∧
      s1.calls = s.calls + m + 1 ∧ s1.draws = s.draws + m ∧
      attemptsOf s1.trace
        = attemptsOf s.trace ++ List.replicate (m + 1) (JoinHostPort target port) ∧
      sleepsOf s1.trace = sleepsOf s.trace + m ∧
      doneOf s1.trace = doneOf s.trace ++
        [(JoinHostPort target port,
          classify (attackOne (env.net (s.calls + m)) s.buf).1
            (attackOne (env.net (s.calls + m)) s.buf).2.1)] ∧
      s1.trace.getLast? = some (Event.done (JoinHostPort target port)
        (classify (attackOne (env.net (s.calls + m)) s.buf).1
          (attackOne (env.net (s.calls + m)) s.buf).2.1))) ∧
    (∀ (ports : List Str) (s : WState), ∃ F s1,
      (∀ fuel, F ≤ fuel → attacker env fl target fuel ports s = .ok s1) ∧
      (doneOf s1.trace).length = (doneOf s.trace).length + ports.length ∧
      (doneOf s1.trace).map Prod.fst
        = (doneOf s.trace).map Prod.fst ++ ports.map (JoinHostPort target) ∧
      (attemptsOf s1.trace).length
        = (attemptsOf s.trace).length + ports.length + (sleepsOf s1.trace - sleepsOf s.trace)) := by
  refine ⟨?_, ?_, ?_⟩
  · intro a ha
    obtain ⟨e, he, hb⟩ := (Retryable_iff fl a []).1 ha
    simp only [Bool.and_eq_true] at hb
    exact ⟨hb.1, e, he, noRoute_suffix e hb.2⟩
  · intro port s
    obtain ⟨m, hre, hterm⟩ := first_terminal env fl s.calls hfair
    obtain ⟨s1, h1, h2, h3, h4, h5, h6, h7⟩ :=
      tryPort_run env fl (JoinHostPort target port) m s hre hterm hdraws
    refine ⟨m, s1, hre, hterm, ?_, h2, h3, h4, h5, h6, h7⟩
    intro fuel hf
    rw [attacker_cons_ok env fl target fuel port [] s s1 (h1 fuel hf)]
    rfl
  · intro ports s
    obtain ⟨F, s1, g1, g2, g3, g4, g5, g6, g7⟩ := attacker_run env fl target ports s hfair hdraws
    refine ⟨F, s1, g1, ?_, g2, ?_⟩
    · have := congrArg List.length g2
      simpa using this
    · omega

/-- C5 at a worker with retries on that gets the ports "80" and "81": the
first attempt ends in "connect: no route to host", every later one connects. -/
theorem C5_one_outcome_per_port_witness :
    ∃ F s1,
      (∀ fuel, F ≤ fuel →
        attacker ⟨fun k => if k = 0 then
            ⟨some "dial tcp 10.0.0.1:80: connect: no route to host".toList, none, [], none⟩
            else ⟨none, none, [72, 73], none⟩, fun _ => some 5⟩
          ⟨false, true⟩ "10.0.0.1".toList fuel ["80".toList, "81".toList] ⟨0, 0, 0, [0], []⟩
          = .ok s1) ∧
      (doneOf s1.trace).length = (doneOf []).length + ["80".toList, "81".toList].length ∧
      (doneOf s1.trace).map Prod.fst
        = (doneOf []).map Prod.fst ++
          ["80".toList, "81".toList].map (JoinHostPort "10.0.0.1".toList) ∧
      (attemptsOf s1.trace).length
        = (attemptsOf []).length + ["80".toList, "81".toList].length
          + (sleepsOf s1.trace - sleepsOf []) :=
  (C5_one_outcome_per_port
    ⟨fun k => if k = 0 then
      ⟨some "dial tcp 10.0.0.1:80: connect: no route to host".toList, none, [], none⟩
      else ⟨none, none, [72, 73], none⟩, fun _ => some 5⟩
    ⟨false, true⟩ "10.0.0.1".toList
    (fun k => ⟨1, by simp [Retryable, attackOne, connRead]⟩)
    (fun _ => ⟨5, rfl⟩)).2.2 ["80".toList, "81".toList] ⟨0, 0, 0, [0], []⟩

/-- C5 as stated fails: the first attempt on the port ends in "connect: no
route to host" with retries on, every later attempt would connect, but the
draw of the sleep fails: `log.Fatalf` stops the process and the port gets no
terminal outcome, whatever the fuel. -/
theorem C5_counterexample :
    (∀ k, ∃ m, Retryable ⟨false, true⟩
      ((fun k => if k = 0 then
        (⟨some "dial tcp 10.0.0.1:80: connect: no route to host".toList, none, [], none⟩ : Attempt)
        else ⟨none, none, [72, 73], none⟩) (k + m)) = false) ∧
    (∀ fuel s1,
      attacker ⟨fun k => if k = 0 then
          ⟨some "dial tcp 10.0.0.1:80: connect: no route to host".toList, none, [], none⟩
          else ⟨none, none, [72, 73], none⟩, fun _ => none⟩
        ⟨false, true⟩ "10.0.0.1".toList fuel ["80".toList] ⟨0, 0, 0, [0], []⟩ ≠ .ok s1) ∧
    attacker ⟨fun k => if k = 0 then
        ⟨some "dial tcp 10.0.0.1:80: connect: no route to host".toList, none, [], none⟩
        else ⟨none, none, [72, 73], none⟩, fun _ => none⟩
      ⟨false, true⟩ "10.0.0.1".toList 5 ["80".toList] ⟨0, 0, 0, [0], []⟩
      = .fatal ⟨1, 0, 0, [0], [Event.attempt "10.0.0.1:80".toList]⟩ := by
  refine ⟨fun k => ⟨1, by simp [Retryable, attackOne, connRead]⟩, ?_, by decide⟩
  intro fuel s1
  cases fuel with
  | zero =>
    intro h
    simp [attacker, tryPort] at h
  | succ f =>
    have h := tryPort_fatal
      ⟨fun k => if k = 0 then
        ⟨some "dial tcp 10.0.0.1:80: connect: no route to host".toList, none, [], none⟩
        else ⟨none, none, [72, 73], none⟩, fun _ => none⟩
      ⟨false, true⟩ (JoinHostPort "10.0.0.1".toList "80".toList) f ⟨0, 0, 0, [0], []⟩ 0
      "dial tcp 10.0.0.1:80: connect: no route to host".toList [0] rfl (by decide) rfl
    rw [attacker]
    simp only [h]
    simp

/-! ## The success counter -/

theorem successLines_append (a b : List Event) :
    successLines (a ++ b) = successLines a + successLines b := by
  simp [successLines, List.countP_append]

theorem successOutcomes_append (a b : List Event) :
    successOutcomes (a ++ b) = successOutcomes a + successOutcomes b := by
  simp [successOutcomes, List.countP_append]

theorem noErrorCalls_one (env : Env) (c : Nat) :
    noErrorCalls env c 1 = if (attackOne (env.net c) []).2.1 = none then 1 else 0 := by
  simp [noErrorCalls]

theorem noErrorCalls_add (env : Env) (a m n : Nat) :
    noErrorCalls env a (m + n) = noErrorCalls env a m + noErrorCalls env (a + m) n := by
  induction m generalizing a with
  | zero => simp [noErrorCalls]
  | succ m ih =>
    have e : m + 1 + n = (m + n) + 1 := by omega
    rw [e, noErrorCalls, noErrorCalls, ih (a + 1)]
    have e2 : a + 1 + m = a + (m + 1) := by omega
    rw [e2]
    omega

/-- The calls of `attackOne` from call `a` on, `n` of them, all return an
error exactly when none of them counts. -/
theorem noErrorCalls_eq_zero (env : Env) (a n : Nat) :
    noErrorCalls env a n = 0 ↔
      ∀ c, a ≤ c → c < a + n → (attackOne (env.net c) []).2.1 ≠ none := by
  induction n generalizing a with
  | zero =>
    simp only [noErrorCalls, true_iff]
    intro c h1 h2
    omega
  | succ n ih =>
    rw [noErrorCalls, Nat.add_eq_zero_iff, ih (a + 1)]
    constructor
    · rintro ⟨h1, h2⟩ c hc1 hc2
      by_cases hca : c = a
      · subst hca
        intro hn
        simp [hn] at h1
      · exact h2 c (by omega) (by omega)
    · intro h
      refine ⟨?_, fun c hc1 hc2 => h c (by omega) (by omega)⟩
      have := h a (le_refl _) (by omega)
      simp [this]

/-- One port: the counter grows by one exactly when the port ends with the
outcome Success, and then one SUCCESS line is written; the port ends with
Success exactly when the last call of `attackOne` made for it returns no
error, and every call before the last returned an error. -/
theorem tryPort_counts (env : Env) (fl : Flags) (t : Str) (fuel : Nat) (s s1 : WState)
    (h : tryPort env fl t fuel s = .ok s1) :
    ∃ k o, doneOf s1.trace = doneOf s.trace ++ [(t, o)] ∧
      (((∃ n, o = Outcome.Success n) ∧ k = 1) ∨ ((∀ n, o ≠ Outcome.Success n) ∧ k = 0)) ∧
      successLines s1.trace = successLines s.trace + k ∧
      successOutcomes s1.trace = successOutcomes s.trace + k ∧
      (s1.nSuc = if k = 1 then (s.nSuc + 1) % 2 ^ 64 else s.nSuc) ∧
      s.calls < s1.calls ∧
      (attemptsOf s1.trace).length = (attemptsOf s.trace).length + (s1.calls - s.calls) ∧
      noErrorCalls env s.calls (s1.calls - 1 - s.calls) = 0 ∧
      noErrorCalls env (s1.calls - 1) 1 = k := by
  induction fuel generalizing s with
  | zero => simp [tryPort] at h
  | succ f ih =>
    rcases hres : attackOne (env.net s.calls) s.buf with ⟨n, err, buf1⟩
    have herr : (attackOne (env.net s.calls) []).2.1 = err := by
      rw [← attackOne_err_indep _ s.buf, hres]
    cases err with
    | none =>
      rw [tryPort_success env fl t f s n buf1 hres] at h
      injection h with h
      subst h
      refine ⟨1, Outcome.Success n, ?_, Or.inl ⟨⟨n, rfl⟩, rfl⟩, ?_, ?_, ?_, ?_, ?_, ?_, ?_⟩
      · simp [doneOf_append, doneOf]
      · simp [successLines_append, successLines, List.countP_cons, Event.isSuccessLine]
      · simp [successOutcomes_append, successOutcomes, List.countP_cons, Event.isSuccessDone]
      · simp
      · simp
      · simp [attemptsOf_append, attemptsOf]
      · simp [noErrorCalls]
      · simp [noErrorCalls, herr]
    | some e =>
      cases hr : (fl.retry && HasSuffix e noRouteMsg) with
      | true =>
        cases hd : env.rnd s.draws with
        | none =>
          rw [tryPort_fatal env fl t f s n e buf1 hres hr hd] at h
          cases h
        | some d =>
          rw [tryPort_retry env fl t f s n e buf1 d hres hr hd] at h
          obtain ⟨k, o, h1, h2, h3, h4, h5, h6, h7, h8, h9⟩ := ih _ h
          dsimp only at h6 h7 h8
          refine ⟨k, o, ?_, h2, ?_, ?_, ?_, by omega, ?_, ?_, h9⟩
          · rw [h1]
            simp [doneOf_append, doneOf]
          · rw [h3]
            simp [successLines_append, successLines, List.countP_cons, Event.isSuccessLine]
          · rw [h4]
            simp [successOutcomes_append, successOutcomes, List.countP_cons, Event.isSuccessDone]
          · rw [h5]
          · rw [h7]
            simp [attemptsOf_append, attemptsOf]
            omega
          · have e1 : s1.calls - 1 - s.calls = 1 + (s1.calls - 1 - (s.calls + 1)) := by omega
            rw [e1, noErrorCalls_add, noErrorCalls_one, herr, h8]
            simp
      | false =>
        cases hf : (HasSuffix e timeoutMsg || HasSuffix e refusedMsg) with
        | true =>
          rw [tryPort_fail env fl t f s n e buf1 hres hr hf] at h
          injection h with h
          subst h
          refine ⟨0, (if HasSuffix e timeoutMsg then Outcome.TimedOut else Outcome.Refused),
            ?_, Or.inr ⟨?_, rfl⟩, ?_, ?_, ?_, ?_, ?_, ?_, ?_⟩
          · cases fl.fails <;> simp [doneOf_append, doneOf]
          · intro n1
            cases HasSuffix e timeoutMsg <;> simp
          · cases fl.fails <;>
              simp [successLines_append, successLines, List.countP_cons, Event.isSuccessLine]
          · cases fl.fails <;> cases HasSuffix e timeoutMsg <;>
              simp [successOutcomes_append, successOutcomes, List.countP_cons,
                Event.isSuccessDone]
          · simp
          · simp
          · cases fl.fails <;> simp [attemptsOf_append, attemptsOf]
          · simp [noErrorCalls]
          · simp [noErrorCalls, herr]
        | false =>
          rw [tryPort_error env fl t f s n e buf1 hres hr hf] at h
          injection h with h
          subst h
          refine ⟨0, Outcome.OtherError e, ?_, Or.inr ⟨by simp, rfl⟩, ?_, ?_, ?_, ?_, ?_, ?_, ?_⟩
          · simp [doneOf_append, doneOf]
          · simp [successLines_append, successLines, List.countP_cons, Event.isSuccessLine]
          · simp [successOutcomes_append, successOutcomes, List.countP_cons, Event.isSuccessDone]
          · simp
          · simp
          · simp [attemptsOf_append, attemptsOf]
          · simp [noErrorCalls]
          · simp [noErrorCalls, herr]

/-- The count of one port: the calls made for it that return no error are as
many as the counter grows by. -/
theorem tryPort_noErrorCalls (env : Env) (a b k : Nat) (hab : a < b)
    (h0 : noErrorCalls env a (b - 1 - a) = 0) (h1 : noErrorCalls env (b - 1) 1 = k) :
    noErrorCalls env a (b - a) = k := by
  have e : b - a = (b - 1 - a) + 1 := by omega
  have e2 : a + (b - 1 - a) = b - 1 := by omega
  rw [e, noErrorCalls_add, h0, e2, h1]
  omega

theorem attacker_counts (env : Env) (fl : Flags) (target : Str) (fuel : Nat)
    (ports : List Str) (s s1 : WState) (hs : s.nSuc < 2 ^ 64)
    (h : attacker env fl target fuel ports s = .ok s1) :
    ∃ k, k ≤ ports.length ∧
      successLines s1.trace = successLines s.trace + k ∧
      successOutcomes s1.trace = successOutcomes s.trace + k ∧
      s1.nSuc = (s.nSuc + k) % 2 ^ 64 ∧
      (doneOf s1.trace).length = (doneOf s.trace).length + ports.length ∧
      s.calls ≤ s1.calls ∧
      (attemptsOf s1.trace).length = (attemptsOf s.trace).length + (s1.calls - s.calls) ∧
      noErrorCalls env s.calls (s1.calls - s.calls) = k := by
  induction ports generalizing s with
  | nil =>
    simp only [attacker] at h
    injection h with h
    subst h
    exact ⟨0, le_refl _, rfl, rfl, by simp; omega, rfl, le_refl _, by simp,
      by simp [noErrorCalls]⟩
  | cons port rest ih =>
    rw [attacker] at h
    cases ht : tryPort env fl (JoinHostPort target port) fuel s with
    | noFuel => simp [ht] at h
    | fatal s2 => simp [ht] at h
    | ok s2 =>
      simp only [ht] at h
      obtain ⟨k1, o, h1, h2, h3, h4, h5, h6, h7, h8, h9⟩ :=
        tryPort_counts env fl _ fuel s s2 ht
      have hk1 : k1 ≤ 1 := by
        rcases h2 with ⟨_, hk⟩ | ⟨_, hk⟩ <;> omega
      have hs2 : s2.nSuc < 2 ^ 64 := by
        rw [h5]
        split_ifs
        · exact Nat.mod_lt _ (by decide)
        · exact hs
      obtain ⟨k2, g1, g2, g3, g4, g5, g6, g7, g8⟩ := ih s2 hs2 h
      have hc := tryPort_noErrorCalls env s.calls s2.calls k1 h6 h8 h9
      refine ⟨k1 + k2, by simp only [List.length_cons]; omega, by omega, by omega, ?_, ?_,
        by omega, by omega, ?_⟩
      · rw [g4, h5]
        have e64 : (2 : Nat) ^ 64 = 18446744073709551616 := by decide
        rw [e64] at hs ⊢
        rcases h2 with ⟨_, hk⟩ | ⟨_, hk⟩
        · subst hk
          simp only [if_true]
          omega
        · subst hk
          simp only [Nat.zero_ne_one, if_false, Nat.zero_add]
      · rw [g5, h1]
        simp only [List.length_append, List.length_cons, List.length_nil]
        omega
      · have e : s1.calls - s.calls = (s2.calls - s.calls) + (s1.calls - s2.calls) := by omega
        have e2 : s.calls + (s2.calls - s.calls) = s2.calls := by omega
        rw [e, noErrorCalls_add, hc, e2, g8]

/-- C10: when a worker has processed a list of ports, the success counter
`nSuc` (a 64 bit counter that was below `2^64` before) has grown by the number
`k` of SUCCESS lines the worker logged, which is the number of ports that
ended with the outcome Success and also the number of calls of `attackOne`
the worker made (the calls numbered from `s.calls` up to `s1.calls`, one for
each attempt in its trace) that returned no error: `nSuc` is
`(nSuc + k) mod 2^64`, and exactly `nSuc + k` when that stays below `2^64`, as
it does in every run of the program.  An attempt that returns no error ends
its port at once, with the counter one higher and one SUCCESS line more.  For
a single port that ends, every attempt before the last returned an error, and
the counter grows by one exactly when the last attempt returns no error, which
is when the port ends with the outcome Success; it is unchanged when the last
attempt returns an error, whatever the outcome then is.  The error of an
attempt does not depend on the buffer it reads into. -/
theorem C10_success_counter (env : Env) (fl : Flags) (target : Str) (fuel : Nat)
    (ports : List Str) (s s1 : WState) (hs : s.nSuc < 2 ^ 64)
    (h : attacker env fl target fuel ports s = .ok s1) :
    (∃ k, k ≤ ports.length ∧
      successLines s1.trace = successLines s.trace + k ∧
      successOutcomes s1.trace = successOutcomes s.trace + k ∧
      s1.nSuc = (s.nSuc + k) % 2 ^ 64 ∧
      (s.nSuc + ports.length < 2 ^ 64 → s1.nSuc = s.nSuc + k) ∧
      s.calls ≤ s1.calls ∧
      (attemptsOf s1.trace).length = (attemptsOf s.trace).length + (s1.calls - s.calls) ∧
      k = noErrorCalls env s.calls (s1.calls - s.calls)) ∧
    (∀ (t : Str) (f : Nat) (u : WState), (attackOne (env.net u.calls) u.buf).2.1 = none →
      ∃ u1, tryPort env fl t (f + 1) u = .ok u1 ∧ u1.calls = u.calls + 1 ∧
        u1.nSuc = (u.nSuc + 1) % 2 ^ 64 ∧
        successLines u1.trace = successLines u.trace + 1) ∧
    (∀ (t : Str) (f : Nat) (u u1 : WState), tryPort env fl t f u = .ok u1 →
      ∃ o, doneOf u1.trace = doneOf u.trace ++ [(t, o)] ∧
        u.calls < u1.calls ∧
        (attemptsOf u1.trace).length = (attemptsOf u.trace).length + (u1.calls - u.calls) ∧
        (∀ c, u.calls ≤ c → c + 1 < u1.calls → (attackOne (env.net c) []).2.1 ≠ none) ∧
        (((∃ n, o = Outcome.Success n) ∧
            (attackOne (env.net (u1.calls - 1)) []).2.1 = none ∧
            u1.nSuc = (u.nSuc + 1) % 2 ^ 64 ∧
            successLines u1.trace = successLines u.trace + 1) ∨
         ((∀ n, o ≠ Outcome.Success n) ∧
            (attackOne (env.net (u1.calls - 1)) []).2.1 ≠ none ∧
            u1.nSuc = u.nSuc ∧
            successLines u1.trace = successLines u.trace))) ∧
    (∀ (a : Attempt) (buf : List Nat), (attackOne a buf).2.1 = (attackOne a []).2.1) := by
  refine ⟨?_, ?_, ?_, attackOne_err_indep⟩
  · obtain ⟨k, h1, h2, h3, h4, _, h6, h7, h8⟩ :=
      attacker_counts env fl target fuel ports s s1 hs h
    refine ⟨k, h1, h2, h3, h4, ?_, h6, h7, h8.symm⟩
    intro hlt
    rw [h4]
    exact Nat.mod_eq_of_lt (by omega)
  · intro t f u hu
    rcases hres : attackOne (env.net u.calls) u.buf with ⟨n, err, buf1⟩
    rw [hres] at hu
    dsimp only at hu
    subst hu
    refine ⟨_, tryPort_success env fl t f u n buf1 hres, rfl, rfl, ?_⟩
    simp [successLines_append, successLines, List.countP_cons, Event.isSuccessLine]
  · intro t f u u1 hu
    obtain ⟨k, o, h1, h2, h3, _, h5, h6, h7, h8, h9⟩ := tryPort_counts env fl t f u u1 hu
    refine ⟨o, h1, h6, h7, ?_, ?_⟩
    · intro c hc1 hc2
      exact (noErrorCalls_eq_zero env u.calls (u1.calls - 1 - u.calls)).mp h8 c hc1 (by omega)
    · rw [noErrorCalls_one] at h9
      rcases h2 with ⟨ho, hk⟩ | ⟨ho, hk⟩
      · subst hk
        refine Or.inl ⟨ho, ?_, by simpa using h5, h3⟩
        by_contra hn
        simp [hn] at h9
      · subst hk
        refine Or.inr ⟨ho, ?_, by simpa using h5, by simpa using h3⟩
        intro hn
        simp [hn] at h9

/-- C10 at a worker that gets the ports "80", "81" and "82": the first is
refused, the other two connect; the counter goes from 0 to 2, with two SUCCESS
lines, two ports ending with Success, three attempts, and two of the three
calls of `attackOne` returning no error. -/
theorem C10_success_counter_witness :
    (∃ k, k ≤ ["80".toList, "81".toList, "82".toList].length ∧
      successLines
        [Event.attempt "h:80".toList,
         Event.done "h:80".toList Outcome.Refused,
         Event.attempt "h:81".toList,
         Event.logSUCCESS "h:81".toList [72],
         Event.done "h:81".toList (Outcome.Success 1),
         Event.attempt "h:82".toList,
         Event.logSUCCESS "h:82".toList [72],
         Event.done "h:82".toList (Outcome.Success 1)] = successLines [] + k ∧
      successOutcomes
        [Event.attempt "h:80".toList,
         Event.done "h:80".toList Outcome.Refused,
         Event.attempt "h:81".toList,
         Event.logSUCCESS "h:81".toList [72],
         Event.done "h:81".toList (Outcome.Success 1),
         Event.attempt "h:82".toList,
         Event.logSUCCESS "h:82".toList [72],
         Event.done "h:82".toList (Outcome.Success 1)] = successOutcomes [] + k ∧
      2 = (0 + k) % 2 ^ 64 ∧
      (0 + ["80".toList, "81".toList, "82".toList].length < 2 ^ 64 → 2 = 0 + k) ∧
      0 ≤ 3 ∧
      (attemptsOf
        [Event.attempt "h:80".toList,
         Event.done "h:80".toList Outcome.Refused,
         Event.attempt "h:81".toList,
         Event.logSUCCESS "h:81".toList [72],
         Event.done "h:81".toList (Outcome.Success 1),
         Event.attempt "h:82".toList,
         Event.logSUCCESS "h:82".toList [72],
         Event.done "h:82".toList (Outcome.Success 1)]).length =
        (attemptsOf []).length + (3 - 0) ∧
      k = noErrorCalls
        ⟨fun c => if c = 0 then ⟨some "dial tcp h:80: connect: connection refused".toList,
          none, [], none⟩ else ⟨none, none, [72], none⟩, fun _ => some 0⟩ 0 (3 - 0)) :=
  (C10_success_counter
    ⟨fun c => if c = 0 then ⟨some "dial tcp h:80: connect: connection refused".toList,
        none, [], none⟩ else ⟨none, none, [72], none⟩, fun _ => some 0⟩
    ⟨false, false⟩ "h".toList 1 ["80".toList, "81".toList, "82".toList]
    ⟨0, 0, 0, [0], []⟩
    ⟨3, 0, 2, [72],
      [Event.attempt "h:80".toList,
       Event.done "h:80".toList Outcome.Refused,
       Event.attempt "h:81".toList,
       Event.logSUCCESS "h:81".toList [72],
       Event.done "h:81".toList (Outcome.Success 1),
       Event.attempt "h:82".toList,
       Event.logSUCCESS "h:82".toList [72],
       Event.done "h:82".toList (Outcome.Success 1)]⟩
    (by decide) (by decide)).1

/-! ## The progress report -/

theorem timeSub_range (n lastt : Int) :
    minInt ≤ timeSub n lastt ∧ timeSub n lastt ≤ maxInt := by
  unfold timeSub minInt maxInt
  omega

theorem tdiv_range (a b : Int) (ha : minInt ≤ a ∧ a ≤ maxInt) (hb : 0 < b) :
    minInt ≤ Int.tdiv a b ∧ Int.tdiv a b ≤ maxInt := by
  unfold minInt maxInt at *
  by_cases h0 : 0 ≤ a
  · rw [Int.tdiv_eq_ediv h0 (le_of_lt hb)]
    have h1 : a / b ≤ a := Int.ediv_le_self b h0
    have h2 : 0 ≤ a / b := Int.ediv_nonneg h0 (le_of_lt hb)
    omega
  · have hneg : 0 ≤ -a := by omega
    have e : Int.tdiv a b = -(Int.tdiv (-a) b) := by
      rw [Int.neg_tdiv]; simp
    rw [e, Int.tdiv_eq_ediv hneg (le_of_lt hb)]
    have h1 : -a / b ≤ -a := Int.ediv_le_self b hneg
    have h2 : 0 ≤ -a / b := Int.ediv_nonneg hneg (le_of_lt hb)
    omega

theorem durDiv_pos (a b : Int) (ha : minInt ≤ a ∧ a ≤ maxInt) (hb : 0 < b) :
    durDiv a b = some (Int.tdiv a b) := by
  unfold durDiv
  have hb0 : b ≠ 0 := by omega
  obtain ⟨h1, h2⟩ := tdiv_range a b ha hb
  simp only [hb0, if_false, wrapInt_of_range _ h1 h2]

/-- A report is written without a panic and is as the specification says. -/
theorem progress_ok (i lasti total lastt n : Int) (h0 : 0 ≤ lasti) (h1 : lasti ≤ i)
    (h2 : i < total) :
    ∃ r, progress i lasti total lastt n = some r ∧ ReportOK total r ∧
      r.i = i ∧ r.lasti = lasti ∧ r.lastt = lastt ∧ r.n = n := by
  unfold progress
  by_cases hlt : lasti < i
  · simp only [hlt, if_true]
    rw [durDiv_pos _ _ (timeSub_range n lastt) (by omega)]
    refine ⟨_, rfl, ⟨rfl, h0, h1, h2, rfl, ?_, ?_⟩, rfl, rfl, rfl, rfl⟩
    · intro h
      simp only at h
      omega
    · intro _
      exact ⟨by simp only; omega, rfl, rfl⟩
  · simp only [hlt, if_false]
    refine ⟨_, rfl, ⟨rfl, h0, h1, h2, rfl, ?_, ?_⟩, rfl, rfl, rfl, rfl⟩
    · intro _
      exact ⟨rfl, rfl⟩
    · intro h
      simp only at h
      omega

theorem Chained_append (a b : Int) (rs : List Report) (r : Report) :
    Chained a b (rs ++ [r]) ↔
      Chained a b rs ∧ r.lastt = (lastPoint a b rs).1 ∧ r.lasti = (lastPoint a b rs).2 := by
  induction rs generalizing a b with
  | nil => simp [Chained, lastPoint]
  | cons x xs ih =>
    show (x.lastt = a ∧ x.lasti = b ∧ Chained x.n x.i (xs ++ [r])) ↔
      (x.lastt = a ∧ x.lasti = b ∧ Chained x.n x.i xs) ∧
        r.lastt = (lastPoint x.n x.i xs).1 ∧ r.lasti = (lastPoint x.n x.i xs).2
    rw [ih]
    tauto

theorem lastPoint_append (a b : Int) (rs : List Report) (r : Report) :
    lastPoint a b (rs ++ [r]) = (r.n, r.i) := by
  induction rs generalizing a b with
  | nil => rfl
  | cons x xs ih =>
    show lastPoint x.n x.i (xs ++ [r]) = (r.n, r.i)
    exact ih _ _

theorem Chained_head (a b : Int) (rs : List Report) (h : Chained a b rs) (r : Report)
    (hr : rs.head? = some r) : r.lastt = a ∧ r.lasti = b := by
  cases rs with
  | nil => simp at hr
  | cons x xs =>
    simp only [List.head?_cons, Option.some.injEq] at hr
    subst hr
    exact ⟨h.1, h.2.1⟩

theorem Chained_next (a b : Int) (rs : List Report) (h : Chained a b rs) (k : Nat)
    (r1 r2 : Report) (h1 : rs[k]? = some r1) (h2 : rs[k + 1]? = some r2) :
    r2.lastt = r1.n ∧ r2.lasti = r1.i := by
  induction rs generalizing a b k with
  | nil => simp at h1
  | cons x xs ih =>
    cases k with
    | zero =>
      simp only [List.getElem?_cons_zero, Option.some.injEq] at h1
      subst h1
      simp only [List.getElem?_cons_succ] at h2
      exact Chained_head _ _ xs h.2.2 r2 (by rw [← h2]; cases xs <;> simp)
    | succ k =>
      simp only [List.getElem?_cons_succ] at h1 h2
      exact ih _ _ h.2.2 k h1 h2

/-- The feeding loop keeps: the reports written so far are as the
specification says, they follow one another from the start of the loop, the
state holds the reading and the index of the last of them, and no port was
processed since only before the first port. -/
theorem feedLoop_ok (now : Nat → Int) (total : Int) (t0 : Int) (rest : List Str) (i : Int)
    (s : PState)
    (h0 : 0 ≤ s.lasti) (h1 : s.lasti < i ∨ (i = 0 ∧ s.lasti = 0)) (h2 : i + rest.length = total)
    (hs : ∀ r, r ∈ s.reports → ReportOK total r ∧ (r.i = r.lasti → r.i = 0))
    (hch : Chained t0 0 s.reports)
    (hlp : lastPoint t0 0 s.reports = (s.lastt, s.lasti))
    (hlt : ∀ r, r ∈ s.reports → r.i < i)
    (hpw : List.Pairwise (fun a b : Report => a.i < b.i) s.reports) :
    ∃ st, feedLoop now total rest i s = some st ∧
      (∀ r, r ∈ st.reports → ReportOK total r ∧ (r.i = r.lasti → r.i = 0)) ∧
      Chained t0 0 st.reports ∧
      lastPoint t0 0 st.reports = (st.lastt, st.lasti) ∧
      List.Pairwise (fun a b : Report => a.i < b.i) st.reports ∧
      s.reports <+: st.reports := by
  induction rest generalizing i s with
  | nil => exact ⟨s, rfl, hs, hch, hlp, hpw, List.prefix_refl _⟩
  | cons p rest ih =>
    rw [feedLoop]
    simp only [List.length_cons, Nat.cast_add, Nat.cast_one] at h2
    by_cases hc : now s.ticks > s.lastt + PROGINTERVAL
    · simp only [hc, if_true]
      obtain ⟨r, hr, hok, e1, e2, e3, e4⟩ :=
        progress_ok i s.lasti total s.lastt (now (s.ticks + 1)) h0 (by omega) (by omega)
      simp only [hr]
      have hi0 : 0 ≤ i := by omega
      obtain ⟨st, g1, g2, g3, g4, g6, g5⟩ := ih (i + 1)
        { lastt := now (s.ticks + 1), lasti := i, ticks := s.ticks + 2,
          reports := s.reports ++ [r] }
        hi0 (Or.inl (by simp only; omega)) (by omega)
        (by
          intro r1 hr1
          simp only [List.mem_append, List.mem_singleton] at hr1
          rcases hr1 with hr1 | rfl
          · exact hs r1 hr1
          · refine ⟨hok, ?_⟩
            intro heq
            rw [e1, e2] at heq
            rw [e1]
            omega)
        (by
          simp only
          rw [Chained_append, hlp]
          exact ⟨hch, e3, e2⟩)
        (by
          simp only
          rw [lastPoint_append, e1, e4])
        (by
          intro r1 hr1
          simp only [List.mem_append, List.mem_singleton] at hr1
          rcases hr1 with hr1 | rfl
          · have := hlt r1 hr1
            omega
          · omega)
        (by
          simp only
          rw [List.pairwise_append]
          refine ⟨hpw, List.pairwise_singleton _ _, ?_⟩
          intro a ha b hb
          simp only [List.mem_singleton] at hb
          subst hb
          rw [e1]
          exact hlt a ha)
      exact ⟨st, g1, g2, g3, g4, g6, (List.prefix_append _ _).trans g5⟩
    · simp only [hc, if_false]
      exact ih (i + 1) { s with ticks := s.ticks + 1 } h0 (Or.inl (by simp only; omega))
        (by omega) hs hch hlp
        (by
          intro r hr
          have := hlt r hr
          omega)
        hpw

/-- When the clock stays within the interval, the rest of the loop writes no
report. -/
theorem feedLoop_quiet (now : Nat → Int) (total : Int) (rest : List Str) (i : Int) (s : PState)
    (h : ∀ k, s.ticks ≤ k → now k ≤ s.lastt + PROGINTERVAL) :
    feedLoop now total rest i s = some { s with ticks := s.ticks + rest.length } := by
  induction rest generalizing i s with
  | nil => rfl
  | cons p rest ih =>
    rw [feedLoop]
    have hc : ¬ (now s.ticks > s.lastt + PROGINTERVAL) := by
      have := h s.ticks (le_refl _)
      omega
    simp only [hc, if_false]
    have hrest := ih (i + 1) { s with ticks := s.ticks + 1 }
      (fun k hk => h k (by simp only at hk; omega))
    rw [hrest]
    simp only [List.length_cons]
    congr 2
    omega

/-- C9 (amended): the feeding loop writes its reports without a run-time panic,
so without a division by zero.  The reports follow one another: the first is
computed from index 0 and the clock reading taken before the loop, every later
one from the index and the reading of the report before it, and `itime` is the
time between the two readings.  In every report `lasti <= i`; if no port was
processed since the last report (`i = lasti`, which happens only at the first
port) both estimates are the texts for "unknown"; otherwise the divisor
`i - lasti` is strictly positive and the remaining time is
`(total - i) * (itime / (i - lasti))` computed in 64 bit arithmetic, with the
division the truncating division on nanoseconds: it is the linear
extrapolation itself whenever that product fits in 64 bits, and its reduction
to 64 bits otherwise. -/
theorem C9_progress_estimate (now : Nat → Int) (ports : List Str) :
    ∃ st, feed now ports = some st ∧
      Chained (now 0) 0 st.reports ∧
      lastPoint (now 0) 0 st.reports = (st.lastt, st.lasti) ∧
      (∀ r, st.reports.head? = some r → r.lastt = now 0 ∧ r.lasti = 0) ∧
      (∀ k r1 r2, st.reports[k]? = some r1 → st.reports[k + 1]? = some r2 →
        r2.lastt = r1.n ∧ r2.lasti = r1.i ∧ r2.itime = timeSub r2.n r1.n ∧ r1.i < r2.i) ∧
      ∀ r, r ∈ st.reports →
        r.total = ports.length ∧ 0 ≤ r.lasti ∧ r.lasti ≤ r.i ∧ r.i < r.total ∧
        r.itime = timeSub r.n r.lastt ∧
        (r.i = r.lasti → r.i = 0 ∧ r.est = none ∧ r.etc = none) ∧
        (r.i ≠ r.lasti →
          0 < r.i - r.lasti ∧
          r.est = some (wrapInt ((r.total - r.i) * Int.tdiv r.itime (r.i - r.lasti))) ∧
          r.etc = some (r.n + wrapInt ((r.total - r.i) * Int.tdiv r.itime (r.i - r.lasti))) ∧
          (minInt ≤ (r.total - r.i) * Int.tdiv r.itime (r.i - r.lasti) →
            (r.total - r.i) * Int.tdiv r.itime (r.i - r.lasti) ≤ maxInt →
            r.est = some ((r.total - r.i) * Int.tdiv r.itime (r.i - r.lasti)) ∧
            r.etc = some (r.n + (r.total - r.i) * Int.tdiv r.itime (r.i - r.lasti)))) := by
  obtain ⟨st, hst, hok, hch, hlp, hpw, _⟩ := feedLoop_ok now ports.length (now 0) ports 0
    { lastt := now 0, lasti := 0, ticks := 1, reports := [] } (le_refl _)
    (Or.inr ⟨rfl, rfl⟩) (by simp) (by simp) trivial rfl (by simp) List.Pairwise.nil
  refine ⟨st, hst, hch, hlp, Chained_head _ _ _ hch, ?_, ?_⟩
  · intro k r1 r2 h1 h2
    obtain ⟨e1, e2⟩ := Chained_next _ _ _ hch k r1 r2 h1 h2
    have hm2 : r2 ∈ st.reports := List.getElem?_mem h2
    obtain ⟨⟨_, _, _, _, g5, _⟩, _⟩ := hok r2 hm2
    refine ⟨e1, e2, by rw [g5, e1], ?_⟩
    obtain ⟨b1, c1⟩ := List.getElem?_eq_some.mp h1
    obtain ⟨b2, c2⟩ := List.getElem?_eq_some.mp h2
    have := List.pairwise_iff_getElem.mp hpw k (k + 1) b1 b2 (Nat.lt_succ_self k)
    rw [c1, c2] at this
    exact this
  · intro r hr
    obtain ⟨⟨h1, h2, h3, h4, h5, h6, h7⟩, h8⟩ := hok r hr
    refine ⟨h1, h2, h3, by rw [h1]; exact h4, h5, ?_, ?_⟩
    · intro heq
      exact ⟨h8 heq, h6 heq⟩
    · intro hne
      obtain ⟨g1, g2, g3⟩ := h7 hne
      rw [h1]
      refine ⟨g1, g2, g3, ?_⟩
      intro b1 b2
      rw [g2, g3, wrapInt_of_range _ b1 b2]
      exact ⟨rfl, rfl⟩

/-- C9 on six ports with a clock that advances eight seconds between two
readings: three reports, each with the extrapolated remaining time, each
computed from the index and the reading of the one before. -/
theorem C9_progress_estimate_witness :
    ∃ st, feed (fun k => k * 8000000000) (List.replicate 6 []) = some st ∧
      st.reports =
        [⟨1, 0, 6, 0, 24000000000, 24000000000, some 120000000000, some 144000000000⟩,
         ⟨3, 1, 6, 24000000000, 48000000000, 24000000000, some 36000000000, some 84000000000⟩,
         ⟨5, 3, 6, 48000000000, 72000000000, 24000000000, some 12000000000, some 84000000000⟩] ∧
      Chained 0 0 st.reports := by
  obtain ⟨st, h1, h2, _⟩ := C9_progress_estimate (fun k => k * 8000000000) (List.replicate 6 [])
  have e : feed (fun k => (k : Int) * 8000000000) (List.replicate 6 []) = some
      ⟨72000000000, 5, 10,
       [⟨1, 0, 6, 0, 24000000000, 24000000000, some 120000000000, some 144000000000⟩,
        ⟨3, 1, 6, 24000000000, 48000000000, 24000000000, some 36000000000,
          some 84000000000⟩,
        ⟨5, 3, 6, 48000000000, 72000000000, 24000000000, some 12000000000,
          some 84000000000⟩]⟩ := by decide
  rw [e] at h1
  injection h1 with h1
  subst h1
  exact ⟨_, e, rfl, by simpa using h2⟩

theorem feedLoop_stall (total : Int) (rest : List Str) :
    feedLoop (fun k => if k ≤ 1 then 0 else 172800000000000) total ([] :: [] :: rest) 0
        { lastt := 0, lasti := 0, ticks := 1, reports := [] }
      = match progress 1 0 total 0 172800000000000 with
        | none => none
        | some r =>
          feedLoop (fun k => if k ≤ 1 then 0 else 172800000000000) total rest 2
            { lastt := 172800000000000, lasti := 1, ticks := 4, reports := [r] } := by
  rw [feedLoop]
  have c1 : ¬ ((if (1 : Nat) ≤ 1 then (0 : Int) else 172800000000000) > 0 + PROGINTERVAL) := by
    decide
  simp only [c1, if_false]
  rw [feedLoop]
  have c2 : (if (1 + 1 : Nat) ≤ 1 then (0 : Int) else 172800000000000) > 0 + PROGINTERVAL := by
    decide
  simp only [c2, if_true]
  rfl

/-- C9 as stated fails: on 65535 ports, when the second port is handed over two
days after the first (the workers were busy), the report at `i = 1` gives a
negative remaining time, the product `65534 * 172800000000000` reduced to 64
bits, and not the linear extrapolation `11324275200000000000`. -/
theorem C9_counterexample :
    ∃ st, feed (fun k => if k ≤ 1 then 0 else 172800000000000) (List.replicate 65535 [])
        = some st ∧
      st.reports = [⟨1, 0, 65535, 0, 172800000000000, 172800000000000,
        some (-7122468873709551616), some (-7122296073709551616)⟩] ∧
      (65535 - 1) * Int.tdiv 172800000000000 (1 - 0) = (11324275200000000000 : Int) := by
  have hp : progress 1 0 65535 0 172800000000000
      = some ⟨1, 0, 65535, 0, 172800000000000, 172800000000000,
        some (-7122468873709551616), some (-7122296073709551616)⟩ := by decide
  have key : ∀ rest : List Str, rest.length = 65533 →
      feed (fun k => if k ≤ 1 then 0 else 172800000000000) ([] :: [] :: rest)
        = some ⟨172800000000000, 1, 65537,
            [⟨1, 0, 65535, 0, 172800000000000, 172800000000000,
              some (-7122468873709551616), some (-7122296073709551616)⟩]⟩ := by
    intro rest hrest
    have hq := feedLoop_quiet (fun k => if k ≤ 1 then 0 else 172800000000000) 65535 rest 2
      { lastt := 172800000000000, lasti := 1, ticks := 4,
        reports := [⟨1, 0, 65535, 0, 172800000000000, 172800000000000,
          some (-7122468873709551616), some (-7122296073709551616)⟩] }
      (by
        intro k hk
        simp only at hk ⊢
        split_ifs
        · decide
        · decide)
    rw [hrest] at hq
    unfold feed
    have hlen : (([] :: [] :: rest : List Str).length : Int) = 65535 := by
      simp only [List.length_cons, hrest]
      rfl
    rw [hlen]
    have h0 : (fun k : Nat => if k ≤ 1 then (0 : Int) else 172800000000000) 0 = 0 := rfl
    rw [h0, feedLoop_stall, hp]
    exact hq
  have hrep : List.replicate 65535 ([] : Str) = [] :: [] :: List.replicate 65533 [] := by
    rw [show (65535 : Nat) = 65533 + 1 + 1 from rfl, List.replicate_succ, List.replicate_succ]
  rw [hrep]
  exact ⟨_, key _ (List.length_replicate _ _), rfl, by decide⟩

end Fastscan
